import Mathlib

/-!
# Verification of the vdm-vscode extension discovery and resolution pipeline

This file gives a shallow embedding, in Lean 4, of the archive/extension
discovery-and-resolution core of the `vdm-vscode` editor extension:

* `src/handlers/AddLibraryHandler.ts` — library sources, name-collision
  resolution, dependency resolution, import-map construction;
* `src/handlers/VDMJExtensionsHandler.ts` — the session-scoped `jarCache`,
  scope merging of search paths, and the per-kind source catalogs;
* the plugin/annotation managers (`ManagePluginsHandler`,
  `ManageAnnotationsHandler`) — metadata loading with skip-on-malformed
  behaviour, and the enablement-state replace semantics;
* `src/util/JarFile.ts` — the archive reader state machine.

JavaScript `Map` objects are embedded as insertion-ordered association lists
(`List (κ × α)`): `Map.prototype.set` updates an existing key in place
(JavaScript keeps the original insertion position) and otherwise appends,
`Map.prototype.get` finds the (unique) entry.  File-system access, archive
contents and configuration values are parameters of the embedded functions.
The dependency resolver of `AddLibraryHandler` has no termination guard in
the source, so it is embedded with an explicit fuel parameter (consumed at
every loop iteration and recursive descent); `none` means the recursion did
not complete within the given fuel, and the result for sufficient fuel is
fuel-independent.

The file is organised as definitions first (the embedding and the concrete
inputs used by witnesses and counterexamples), then theorems.
-/

set_option autoImplicit false

universe u v

/-! ## JavaScript collection primitives -/

section JsMapDefs

variable {κ : Type u} {α : Type v} [DecidableEq κ]

/-- `Map.prototype.get`: the value of the first entry for `k`, if any. -/
def jsGet : List (κ × α) → κ → Option α
  | [], _ => none
  | p :: t, k => if p.1 = k then some p.2 else jsGet t k

/-- `Map.prototype.set`: update the entry for `k` in place if present
(JavaScript keeps the original insertion position), otherwise append. -/
def jsSet (m : List (κ × α)) (k : κ) (v : α) : List (κ × α) :=
  if m.any (fun p => p.1 = k) then
    m.map (fun p => if p.1 = k then (k, v) else p)
  else
    m ++ [(k, v)]

/-- `new Map(entries)`: build a map from an entry list, later entries for a
key overwriting the value stored at the first occurrence's position. -/
def jsMapOf (l : List (κ × α)) : List (κ × α) :=
  l.foldl (fun m p => jsSet m p.1 p.2) []

/-- The last value stored for a key in an entry list (what a `Map` built from
the list reports for that key). -/
def lastVal : List (κ × α) → κ → Option α
  | [], _ => none
  | p :: t, k =>
    match lastVal t k with
    | some v => some v
    | none => if p.1 = k then some p.2 else none

end JsMapDefs

/-- `Array.from(new Set(l))`: deduplicate, keeping first occurrences in
order. -/
def jsSetOf {α : Type u} [DecidableEq α] (l : List α) : List α :=
  l.foldl (fun acc x => if x ∈ acc then acc else acc ++ [x]) []

/-! ## Path primitives (`node:path`, POSIX flavour) -/

/-- `Path.basename`: the final segment of a `/`-separated path (the
characters after the last `/`). -/
def basename (p : String) : String :=
  String.mk (p.data.foldl (fun acc c => if c = '/' then [] else acc ++ [c]) [])

/-- `Path.isAbsolute` for POSIX paths: the path starts with `/`. -/
def isAbsolutePath (p : String) : Bool :=
  match p.data with
  | [] => false
  | c :: _ => c = '/'

/-- `Path.resolve(root, p)` for an already-absolute `root`: join the two
segments; resolving the empty string yields `root` itself. -/
def resolvePath (root p : String) : String :=
  if p = "" then root else root ++ "/" ++ p

/-- The file-system facts consulted by the resolvers: existence, kind, and
the result of `getFilesFromDirRecur(dir, "jar")`. -/
structure FileSys where
  existsPath : String → Bool
  isDir : String → Bool
  dirJars : String → List String

/-- Expand one declared search path: resolve relative paths against the
optional root, drop nonexistent ones (`none`), and expand directories to
their recursively contained jar files. -/
def expandSearchPath (fs : FileSys) (rootUri : Option String)
    (originalPath : String) : Option (List String) :=
  let resolvedPath : String :=
    match rootUri with
    | some root =>
      if isAbsolutePath originalPath then originalPath
      else resolvePath root originalPath
    | none => originalPath
  if fs.existsPath resolvedPath then
    some (if fs.isDir resolvedPath then fs.dirJars resolvedPath
          else [resolvedPath])
  else none

/-- The duplicate-jar-name filter shared by both `resolveJarPathsFromSettings`
implementations: keep a path only if no previously kept path has the same
basename (`visitedJarPaths`). -/
def dedupByBasename (l : List String) : List String :=
  l.foldl
    (fun acc p =>
      if acc.any (fun q => basename q = basename p) then acc else acc ++ [p])
    []

/-- The shared body of `resolveJarPathsFromSettings`: flat-map every declared
path through `expandSearchPath`, collecting resolution failures, then filter
out duplicate jar basenames.  Returns `(resolvedJarPaths, resolveFailedPaths)`. -/
def resolveJarPathsCore (fs : FileSys) (jarPaths : List String)
    (rootUri : Option String) : List String × List String :=
  let flat := jarPaths.foldl
    (fun (acc : List String × List String) p =>
      match expandSearchPath fs rootUri p with
      | none => (acc.1, acc.2 ++ [p])
      | some l => (acc.1 ++ l, acc.2))
    ([], [])
  (dedupByBasename flat.1, flat.2)

/-- The settings-equality test guarding the scope merge (both handlers):
`folderSettings.length === uws.length && folderSettings.every(ujp =>
uws.find(fjp => fjp === ujp))`.  Note `Array.prototype.find` returns the
found string itself, which JavaScript treats as false when it is empty. -/
def settingsEqualJS (folderSettings uws : List String) : Bool :=
  folderSettings.length == uws.length &&
    folderSettings.all (fun ujp =>
      match uws.find? (fun fjp => fjp = ujp) with
      | some fjp => decide (fjp ≠ "")
      | none => false)

/-- The basename filter applied to workspace/user-scope resolved paths in the
scope merge: drop a path when `folderPaths.find(...)` returns a truthy
existing path with the same basename. -/
def mergeKeepsPath (folderPaths : List String) (uwsPath : String) : Bool :=
  match folderPaths.find? (fun fsPath => basename fsPath = basename uwsPath) with
  | some existingJarPath => decide (existingJarPath = "")
  | none => true

/-- "Identical (same length, same elements, order-insensitive)", following
the specification's wording for when the two scope settings coincide; used
to compare the specified scope-merge rule with the implemented one. -/
def identicalUpToOrder (l₁ l₂ : List String) : Prop :=
  l₁.Perm l₂

/-! ## Data model of `AddLibraryHandler.ts` -/

/-- `LibrarySource` from `AddLibraryHandler.ts`: `type` is `"builtin"` or
`"user"`. -/
structure LibrarySource where
  type : String
  jarPath : String
deriving DecidableEq, Repr

/-- `LibraryMetadata` as parsed from `META-INF/library.json`. -/
structure LibraryMetadata where
  name : String
  description : String
  depends : List String
  files : List String
deriving DecidableEq, Repr

/-- `SourcedLibraryMetadata`: metadata with its `source` back-reference. -/
structure SourcedLibraryMetadata where
  name : String
  description : String
  depends : List String
  files : List String
  source : LibrarySource
deriving DecidableEq, Repr

/-- `{...lib, source}`. -/
def LibraryMetadata.withSource (lib : LibraryMetadata)
    (source : LibrarySource) : SourcedLibraryMetadata :=
  ⟨lib.name, lib.description, lib.depends, lib.files, source⟩

/-- `LibrarySourceMap = Map<string, SourcedLibraryMetadata>`. -/
abbrev LibrarySourceMap := List (String × SourcedLibraryMetadata)

/-- `LibrarySourceMapDuplicates = Map<string, SourcedLibraryMetadata[]>`. -/
abbrev LibrarySourceMapDuplicates := List (String × List SourcedLibraryMetadata)

/-- `DependencyResolutionResult` from `AddLibraryHandler.ts`. -/
structure DependencyResolutionResult where
  resolved : LibrarySourceMap
  unresolved : List String
deriving DecidableEq, Repr

namespace AddLibraryHandler

/-- The loop body of `resolveLibraryDependencies`: iterate over the pending
dependency names `ds`, threading the accumulator
`(resolvedDependencies, unresolvedDependencies)`.  A missing catalog entry is
appended to the unresolved list; a present entry is resolved recursively and
merged via `new Map([...resolved, [name, dep], ...sub.resolved])`.  The
source has no termination guard, so the embedding burns one unit of `fuel`
at every step (loop iteration or recursive descent); `none` reports that the
walk did not complete within the given fuel.  The result for sufficient fuel
is fuel-independent (`resolveDepsGo_mono`). -/
def resolveDepsGo (m : LibrarySourceMap) :
    Nat → List String → LibrarySourceMap × List String →
      Option (LibrarySourceMap × List String)
  | 0, _, _ => none
  | _ + 1, [], acc => some acc
  | fuel + 1, d :: ds, acc =>
    match jsGet m d with
    | none => resolveDepsGo m fuel ds (acc.1, acc.2 ++ [d])
    | some dep =>
      match resolveDepsGo m fuel dep.depends ([], []) with
      | none => none
      | some su =>
        resolveDepsGo m fuel ds
          (jsMapOf (acc.1 ++ (d, dep) :: su.1), acc.2 ++ su.2)

/-- `resolveLibraryDependencies(libInfo, libSourceMap)` with explicit fuel. -/
def resolveLibraryDependencies (libInfo : SourcedLibraryMetadata)
    (m : LibrarySourceMap) (fuel : Nat) : Option DependencyResolutionResult :=
  (resolveDepsGo m fuel libInfo.depends ([], [])).map
    (fun r => ⟨r.1, r.2⟩)

/-- `DepReach m ds k`: starting from the dependency-name list `ds`, the name
`k` is encountered during the dependency walk over the catalog `m` (the
transitive closure of the depends names). -/
inductive DepReach (m : LibrarySourceMap) : List String → String → Prop
  | base {ds : List String} {d : String} : d ∈ ds → DepReach m ds d
  | step {ds : List String} {d d' : String} {dep : SourcedLibraryMetadata} :
      DepReach m ds d → jsGet m d = some dep → d' ∈ dep.depends →
      DepReach m ds d'

/-- The catalog's depends relation has no cycle: no present entry can reach
its own name through its dependency names. -/
def Acyclic (m : LibrarySourceMap) : Prop :=
  ∀ d dep, jsGet m d = some dep → ¬ DepReach m dep.depends d

/-- `findDuplicateLibraries`: for every name with more than one candidate,
record the *first* candidate (the winner) in the duplicate map under the
*winner's* source. -/
def findDuplicateLibraries (libSourceMap : LibrarySourceMapDuplicates) :
    List (LibrarySource × List SourcedLibraryMetadata) :=
  libSourceMap.foldl
    (fun duplicateMap p =>
      match p.2 with
      | [] => duplicateMap        -- candidate lists are never empty when built
      | [_] => duplicateMap       -- skipped: `if (libInfos.length === 1) continue`
      | firstLib :: _ :: _ =>
        jsSet duplicateMap firstLib.source
          ((jsGet duplicateMap firstLib.source).getD [] ++ [firstLib]))
    []

/-- The final loop of `getAllLibInfo`: `libSourceMap.set(libName, libInfos[0])`. -/
def pickFirstLibraries (libSourceMapWithDuplicates : LibrarySourceMapDuplicates) :
    LibrarySourceMap :=
  libSourceMapWithDuplicates.foldl
    (fun libSourceMap p =>
      match p.2 with
      | [] => libSourceMap
      | libInfo :: _ => jsSet libSourceMap p.1 libInfo)
    []

/-- The archive contents consulted by the library metadata loader:
whether `JarFile.open` succeeds, and the parsed dialect-indexed content of
`META-INF/library.json` (`none` when the entry is absent from the jar). -/
structure LibJarEnv where
  jarOpens : String → Bool
  libraryJson : String → Option (List (String × List LibraryMetadata))

/-- `getLibInfoFromSource`: open the jar and read `META-INF/library.json`.
When the entry is absent, `jarFile.readFile(...)` resolves to `undefined` and
the unconditional `.toString()` raises a `TypeError`; there is no check in
the source, so the function faults (`error`) instead of returning an empty
result.  The error value is the offending jar path. -/
def getLibInfoFromSource (env : LibJarEnv) (source : LibrarySource)
    (dialect : String) : Except String (List SourcedLibraryMetadata) :=
  if env.jarOpens source.jarPath then
    match env.libraryJson source.jarPath with
    | none => Except.error source.jarPath
    | some jsonData =>
      Except.ok (((jsGet jsonData dialect).getD []).map
        (fun lib => lib.withSource source))
  else Except.error source.jarPath

/-- The discovery loop of `getAllLibInfo`, building
`libSourceMapWithDuplicates`.  An error from `getLibInfoFromSource` is
awaited without any catch, so it aborts the whole loop. -/
def collectLibInfoDup (env : LibJarEnv) (dialect : String) :
    List LibrarySource → LibrarySourceMapDuplicates →
      Except String LibrarySourceMapDuplicates
  | [], acc => Except.ok acc
  | s :: rest, acc =>
    match getLibInfoFromSource env s dialect with
    | Except.error e => Except.error e
    | Except.ok libInfos =>
      collectLibInfoDup env dialect rest
        (libInfos.foldl
          (fun a libInfo =>
            jsSet a libInfo.name ((jsGet a libInfo.name).getD [] ++ [libInfo]))
          acc)

/-- `getAllLibInfo` restricted to its discovery core: run the loop over the
given sources and pick the first candidate per name. -/
def getAllLibInfo (env : LibJarEnv) (dialect : String)
    (sources : List LibrarySource) : Except String LibrarySourceMap :=
  (collectLibInfoDup env dialect sources []).map pickFirstLibraries

/-- `getLibFileNames`: the union (JavaScript `Set`) of the `files` lists of
all libraries imported from one jar, in first-occurrence order. -/
def getLibFileNames (libInfos : List SourcedLibraryMetadata) : List String :=
  jsSetOf (libInfos.foldl (fun acc l => acc ++ l.files) [])

/-- The inner loop of `addLibFilesToTarget` that records, for each library
to import (the selected one and its resolved dependencies), which jar it
comes from: `importMap.get(source) ?? []` then push, then set. -/
def addLibsToImportMap
    (importMap : List (LibrarySource × List SourcedLibraryMetadata))
    (libs : List SourcedLibraryMetadata) :
    List (LibrarySource × List SourcedLibraryMetadata) :=
  libs.foldl
    (fun im dep => jsSet im dep.source ((jsGet im dep.source).getD [] ++ [dep]))
    importMap

/-- The per-selection loop of `addLibFilesToTarget`: resolve dependencies,
extend the import map with the library itself and every resolved dependency,
and record a warning with the unresolved names when there are any (the
library is added to the import map regardless).  Warnings are
`(library name, unresolved dependency names)` pairs.  `none` propagates a
diverging dependency resolution. -/
def buildImportMap (m : LibrarySourceMap) (fuel : Nat) :
    List SourcedLibraryMetadata →
      List (LibrarySource × List SourcedLibraryMetadata) ×
        List (String × List String) →
      Option (List (LibrarySource × List SourcedLibraryMetadata) ×
        List (String × List String))
  | [], acc => some acc
  | libInfo :: rest, acc =>
    match resolveLibraryDependencies libInfo m fuel with
    | none => none
    | some res =>
      let im := addLibsToImportMap acc.1 (libInfo :: res.resolved.map Prod.snd)
      let warns :=
        if res.unresolved = [] then acc.2
        else acc.2 ++ [(libInfo.name, res.unresolved)]
      buildImportMap m fuel rest (im, warns)

/-- `getUserLibrarySources` from `AddLibraryHandler.ts` (no cache): resolve
the folder-scope settings against the workspace root; if the settings-equality
test fails, additionally resolve the workspace/user-scope settings with no
root and append those whose basename is new.  Returns the sources and the
accumulated `resolveFailedPaths`. -/
def getUserLibrarySources (fs : FileSys) (folderSettings uws : List String)
    (wsRoot : String) : List LibrarySource × List String :=
  let folder := resolveJarPathsCore fs folderSettings (some wsRoot)
  if settingsEqualJS folderSettings uws then
    (folder.1.map (fun jarPath => ⟨"user", jarPath⟩), folder.2)
  else
    let uwsRes := resolveJarPathsCore fs uws none
    let merged := folder.1 ++ uwsRes.1.filter (mergeKeepsPath folder.1)
    (merged.map (fun jarPath => ⟨"user", jarPath⟩), folder.2 ++ uwsRes.2)

end AddLibraryHandler

/-! ## Data model of `VDMJExtensionsHandler.ts` -/

/-- `ExtensionSource` has the same shape as `LibrarySource` (`type` is
`"builtin"` or `"user"`). -/
abbrev ExtensionSource := LibrarySource

namespace VDMJExtensionsHandler

/-- The environment consulted by `VDMJExtensionsHandler`: the file system,
the `extensionSearchPaths` settings at both scopes, the workspace root, the
resolved `vdmjEnhancements` jar paths contributed by installed host
extensions (in `extensions.all` order), the three built-in jar directories,
and the archive facts used by `filterExtensionSources`. -/
structure VDMJEnv where
  fs : FileSys
  folderSettings : List String
  userOrWorkspaceSettings : List String
  wsRoot : String
  hostJarPaths : List String
  includedLibsPath : String
  includedPluginsPath : String
  includedAnnotationsPath : String
  jarOpens : String → Bool
  jarHasEntry : String → String → Bool

/-- `resolveJarPathsFromSettings` with the static `jarCache`: when the cache
is populated it is returned unchanged regardless of the arguments (and no
failed paths are reported); otherwise the paths are resolved and the result
is stored in the cache.  Returns
`(resolvedJarPaths, resolveFailedPaths, newCache)`. -/
def resolveJarPathsFromSettings (env : VDMJEnv) (cache : Option (List String))
    (jarPaths : List String) (rootUri : Option String) :
    List String × List String × Option (List String) :=
  match cache with
  | some cached => (cached, [], some cached)
  | none =>
    let r := resolveJarPathsCore env.fs jarPaths rootUri
    (r.1, r.2, some r.1)

/-- `getUserExtensionSources` with the cache threaded through both
`resolveJarPathsFromSettings` calls.  Returns
`(sources, resolveFailedPaths, newCache)`. -/
def getUserExtensionSources (env : VDMJEnv) (cache : Option (List String)) :
    List ExtensionSource × List String × Option (List String) :=
  let folder :=
    resolveJarPathsFromSettings env cache env.folderSettings (some env.wsRoot)
  if settingsEqualJS env.folderSettings env.userOrWorkspaceSettings then
    (folder.1.map (fun jarPath => ⟨"user", jarPath⟩), folder.2.1, folder.2.2)
  else
    let uws :=
      resolveJarPathsFromSettings env folder.2.2 env.userOrWorkspaceSettings none
    let merged := folder.1 ++ uws.1.filter (mergeKeepsPath folder.1)
    (merged.map (fun jarPath => ⟨"user", jarPath⟩),
      folder.2.1 ++ uws.2.1, uws.2.2)

/-- `getDefaultExtensionSources`: keep only built-in jar paths whose basename
is not claimed by one of the given user-defined sources. -/
def getDefaultExtensionSources (jarPaths : List String)
    (userDefinedExtensionSources : List ExtensionSource) :
    List ExtensionSource :=
  let kept :=
    if userDefinedExtensionSources.length > 0 then
      jarPaths.filter (fun ijp =>
        !(userDefinedExtensionSources.any
          (fun userLib => basename userLib.jarPath = basename ijp)))
    else jarPaths
  kept.map (fun jarPath => ⟨"builtin", jarPath⟩)

/-- `getExtensionExtensionSources`: the jar paths contributed through the
`vdmjEnhancements` manifest field of installed host extensions, minus those
whose basename is claimed by a user-defined source; note they are tagged
`"user"`. -/
def getExtensionExtensionSources (env : VDMJEnv)
    (userDefinedExtensionSources : List ExtensionSource) :
    List ExtensionSource :=
  (env.hostJarPaths.filter (fun ijp =>
    !(userDefinedExtensionSources.any
      (fun userLib => basename userLib.jarPath = basename ijp)))).map
    (fun jarPath => ⟨"user", jarPath⟩)

/-- `filterExtensionSources`: keep sources whose jar opens and contains the
kind's metadata entry. -/
def filterExtensionSources (env : VDMJEnv) (extSources : List ExtensionSource)
    (metaFileTest : String) : List ExtensionSource :=
  extSources.filter
    (fun extSrc => env.jarOpens extSrc.jarPath &&
      env.jarHasEntry extSrc.jarPath metaFileTest)

/-- `getIncludedLibrariesFolderPath`: the built-in library jar directory, or
`none` when it does not exist. -/
def getIncludedLibrariesFolderPath (env : VDMJEnv) : Option String :=
  if env.fs.existsPath env.includedLibsPath then some env.includedLibsPath
  else none

/-- `getIncludedPluginsFolderPath`. -/
def getIncludedPluginsFolderPath (env : VDMJEnv) : Option String :=
  if env.fs.existsPath env.includedPluginsPath then some env.includedPluginsPath
  else none

/-- `getIncludedAnnotationsFolderPath`. -/
def getIncludedAnnotationsFolderPath (env : VDMJEnv) : Option String :=
  if env.fs.existsPath env.includedAnnotationsPath then
    some env.includedAnnotationsPath
  else none

/-- `getUserLibrarySources`. -/
def getUserLibrarySources (env : VDMJEnv) (cache : Option (List String)) :
    List ExtensionSource × Option (List String) :=
  let u := getUserExtensionSources env cache
  (filterExtensionSources env u.1 "META-INF/library.json", u.2.2)

/-- `getExtensionLibrarySources`. -/
def getExtensionLibrarySources (env : VDMJEnv)
    (userDefinedLibrarySources : List ExtensionSource) : List ExtensionSource :=
  filterExtensionSources env
    (getExtensionExtensionSources env userDefinedLibrarySources)
    "META-INF/library.json"

/-- `getDefaultLibrarySources`. -/
def getDefaultLibrarySources (env : VDMJEnv)
    (userDefinedLibrarySources : List ExtensionSource) : List ExtensionSource :=
  match getIncludedLibrariesFolderPath env with
  | none => []
  | some p =>
    getDefaultExtensionSources (env.fs.dirJars p) userDefinedLibrarySources

/-- `getAllLibrarySources`: note the host-extension-contributed libraries are
computed (and used to filter the built-in ones) but *not* included in the
returned list, which is `userLibraries.concat(defaultLibraries)`. -/
def getAllLibrarySources (env : VDMJEnv) (cache : Option (List String)) :
    List ExtensionSource × Option (List String) :=
  let user := getUserLibrarySources env cache
  let extensionLibraries := getExtensionLibrarySources env user.1
  let defaultLibraries := getDefaultLibrarySources env extensionLibraries
  (user.1 ++ defaultLibraries, user.2)

/-- `getUserPluginSources`. -/
def getUserPluginSources (env : VDMJEnv) (cache : Option (List String)) :
    List ExtensionSource × Option (List String) :=
  let u := getUserExtensionSources env cache
  (filterExtensionSources env u.1 "META-INF/plugin.json", u.2.2)

/-- `getExtensionPluginSources`. -/
def getExtensionPluginSources (env : VDMJEnv)
    (userDefinedPluginSources : List ExtensionSource) : List ExtensionSource :=
  filterExtensionSources env
    (getExtensionExtensionSources env userDefinedPluginSources)
    "META-INF/plugin.json"

/-- `getDefaultPluginSources`. -/
def getDefaultPluginSources (env : VDMJEnv)
    (userDefinedPluginSources : List ExtensionSource) : List ExtensionSource :=
  match getIncludedPluginsFolderPath env with
  | none => []
  | some p =>
    getDefaultExtensionSources (env.fs.dirJars p) userDefinedPluginSources

/-- `getAllPluginSources`: `userPlugins.concat(defaultPlugins,
extensionPlugins)` — built-in plugins (filtered against the host-extension
ones only) come before the host-extension ones. -/
def getAllPluginSources (env : VDMJEnv) (cache : Option (List String)) :
    List ExtensionSource × Option (List String) :=
  let user := getUserPluginSources env cache
  let extensionPlugins := getExtensionPluginSources env user.1
  let defaultPlugins := getDefaultPluginSources env extensionPlugins
  (user.1 ++ defaultPlugins ++ extensionPlugins, user.2)

/-- `getUserAnnotationsSources` (tests for `META-INF/annotations.json`). -/
def getUserAnnotationsSources (env : VDMJEnv) (cache : Option (List String)) :
    List ExtensionSource × Option (List String) :=
  let u := getUserExtensionSources env cache
  (filterExtensionSources env u.1 "META-INF/annotations.json", u.2.2)

/-- `getExtensionAnnotationSources`. -/
def getExtensionAnnotationSources (env : VDMJEnv)
    (userDefinedSources : List ExtensionSource) : List ExtensionSource :=
  filterExtensionSources env
    (getExtensionExtensionSources env userDefinedSources)
    "META-INF/annotations.json"

/-- `getDefaultAnnotationSources`. -/
def getDefaultAnnotationSources (env : VDMJEnv)
    (userDefinedSources : List ExtensionSource) : List ExtensionSource :=
  match getIncludedAnnotationsFolderPath env with
  | none => []
  | some p => getDefaultExtensionSources (env.fs.dirJars p) userDefinedSources

/-- `getAllAnnotationSources`: same structure as `getAllPluginSources`. -/
def getAllAnnotationSources (env : VDMJEnv) (cache : Option (List String)) :
    List ExtensionSource × Option (List String) :=
  let user := getUserAnnotationsSources env cache
  let extensionAnnotations := getExtensionAnnotationSources env user.1
  let defaultAnnotations := getDefaultAnnotationSources env extensionAnnotations
  (user.1 ++ defaultAnnotations ++ extensionAnnotations, user.2)

end VDMJExtensionsHandler

/-! ## Data model of `ManagePluginsHandler` -/

/-- `PluginMetadata` as parsed from `META-INF/plugin.json`; `precision` is
optional in the JSON. -/
structure RawPluginMetadata where
  name : String
  description : String
  dialects : List String
  precision : Option String
deriving DecidableEq, Repr

/-- `SourcedPluginMetadata` after the precision default has been applied. -/
structure SourcedPluginMetadata where
  name : String
  description : String
  dialects : List String
  precision : String
  source : ExtensionSource
deriving DecidableEq, Repr

/-- `PluginMetadataState`: sourced metadata plus the `enabled` flag. -/
structure PluginMetadataState where
  name : String
  description : String
  dialects : List String
  precision : String
  source : ExtensionSource
  enabled : Bool
deriving DecidableEq, Repr

/-- `{...pluginInfo, enabled: b}`. -/
def PluginMetadataState.setEnabled (st : PluginMetadataState) (b : Bool) :
    PluginMetadataState :=
  { st with enabled := b }

namespace ManagePluginsHandler

/-- The archive contents consulted by the plugin metadata loader. -/
structure PluginJarEnv where
  jarOpens : String → Bool
  pluginJson : String → Option RawPluginMetadata

/-- `getPluginInfoFromSource`: open the jar, read `META-INF/plugin.json`.
When the entry is absent (`readFile` resolves to `undefined`) the guard
`if (!rawPluginInfo) return undefined` returns `none`; a missing `precision`
field defaults to `"standard"`; an unopenable jar rejects (`error`). -/
def getPluginInfoFromSource (env : PluginJarEnv) (source : ExtensionSource) :
    Except String (Option SourcedPluginMetadata) :=
  if env.jarOpens source.jarPath then
    match env.pluginJson source.jarPath with
    | none => Except.ok none
    | some raw =>
      Except.ok (some
        ⟨raw.name, raw.description, raw.dialects,
          raw.precision.getD "standard", source⟩)
  else Except.error source.jarPath

/-- The discovery loop of `getAllPluginInfo`, building
`pluginSourceMapWithDuplicates`: a malformed jar (metadata entry absent) is
skipped with a warning naming the jar path; a loaded plugin is kept only if
its dialects include the dialect in use and its precision matches.  The
accumulator is `(duplicates map, warned jar paths)`. -/
def collectPluginInfoDup (env : PluginJarEnv) (dialect precision : String) :
    List ExtensionSource →
      List (String × List SourcedPluginMetadata) × List String →
      Except String
        (List (String × List SourcedPluginMetadata) × List String)
  | [], acc => Except.ok acc
  | s :: rest, acc =>
    match getPluginInfoFromSource env s with
    | Except.error e => Except.error e
    | Except.ok none =>
      collectPluginInfoDup env dialect precision rest
        (acc.1, acc.2 ++ [s.jarPath])
    | Except.ok (some info) =>
      if dialect ∈ info.dialects ∧ info.precision = precision then
        collectPluginInfoDup env dialect precision rest
          (jsSet acc.1 info.name ((jsGet acc.1 info.name).getD [] ++ [info]),
            acc.2)
      else collectPluginInfoDup env dialect precision rest acc

/-- The final loop of `getAllPluginInfo`:
`pluginSourceMap.set(pluginName, pluginInfos[0])`. -/
def pickFirstPlugins
    (pluginSourceMapWithDuplicates : List (String × List SourcedPluginMetadata)) :
    List (String × SourcedPluginMetadata) :=
  pluginSourceMapWithDuplicates.foldl
    (fun pluginSourceMap p =>
      match p.2 with
      | [] => pluginSourceMap
      | pluginInfo :: _ => jsSet pluginSourceMap p.1 pluginInfo)
    []

/-- `getAllPluginInfo` restricted to its discovery core over a given source
list: returns the deduplicated plugin map and the list of jar paths that
were warned about as malformed. -/
def getAllPluginInfo (env : PluginJarEnv) (dialect precision : String)
    (sources : List ExtensionSource) :
    Except String (List (String × SourcedPluginMetadata) × List String) :=
  (collectPluginInfoDup env dialect precision sources ([], [])).map
    (fun r => (pickFirstPlugins r.1, r.2))

/-- The selection-application step of `promptUserManagePlugins`: start from
`new Map(currentState)`, set every entry's `enabled` to `false`, then set
`enabled = true` for every selected name.  In the source the selected items
always denote keys of `currentState` (they are built from its values), so
the lookup in the second loop cannot miss; a missing name is modelled as a
no-op. -/
def applyUserSelection (currentState : List (String × PluginMetadataState))
    (selectedNames : List String) : List (String × PluginMetadataState) :=
  let newState := currentState.foldl
    (fun ns p => jsSet ns p.1 (p.2.setEnabled false)) currentState
  selectedNames.foldl
    (fun ns n =>
      match jsGet ns n with
      | none => ns
      | some st => jsSet ns n (st.setEnabled true))
    newState

end ManagePluginsHandler

/-! ## Data model of `JarFile.ts` -/

/-- One entry of the underlying zip file (yauzl's entry stream). -/
structure ZipEntry where
  fileName : String
  content : String
deriving DecidableEq, Repr

/-- The state of a `JarFile` handle: the zip's entry stream, how many entries
have been emitted so far (`lazyEntries` reading), the `_entries` cache
record, and whether the underlying `ZipFile` is open. -/
structure JarFileState where
  entries : List ZipEntry
  cursor : Nat
  entryCache : List (String × ZipEntry)
  isOpen : Bool
deriving DecidableEq, Repr

namespace JarFile

/-- `JarFile.open`: a fresh handle on the given zip entry stream. -/
def openJar (entries : List ZipEntry) : JarFileState :=
  ⟨entries, 0, [], true⟩

/-- `consumeEntriesUntilMatch`: read entries one at a time, caching each
(`handleEntry`), until one matches the requested path or the stream ends.
Returns the new cache, the number of entries consumed, and the match. -/
def consumeEntriesUntilMatch (path : String) :
    List ZipEntry → List (String × ZipEntry) →
      List (String × ZipEntry) × Nat × Option ZipEntry
  | [], cache => (cache, 0, none)
  | e :: rest, cache =>
    let cache' := jsSet cache e.fileName e
    if e.fileName = path then (cache', 1, some e)
    else
      let r := consumeEntriesUntilMatch path rest cache'
      (r.1, r.2.1 + 1, r.2.2)

/-- `readFile(path)`: throws when the handle has been closed; otherwise
serves from the `_entries` cache, or consumes further entries until a match;
an absent entry yields `ok none` (the caller's `undefined`). -/
def readFile (s : JarFileState) (path : String) :
    Except String (Option String) × JarFileState :=
  if s.isOpen then
    match jsGet s.entryCache path with
    | some e => (Except.ok (some e.content), s)
    | none =>
      let r := consumeEntriesUntilMatch path (s.entries.drop s.cursor)
        s.entryCache
      match r.2.2 with
      | some e =>
        (Except.ok (some e.content),
          { s with entryCache := r.1, cursor := s.cursor + r.2.1 })
      | none =>
        (Except.ok none,
          { s with entryCache := r.1, cursor := s.cursor + r.2.1 })
  else
    (Except.error "The JAR has already been closed, it is not possible to read from it.", s)

/-- `close()`: remove the listeners and close the underlying zip file; the
operation itself cannot fail. -/
def close (s : JarFileState) : JarFileState :=
  { s with isOpen := false }

end JarFile

/-! ## Concrete inputs used by witnesses and counterexamples -/

/-- A jar source shared by the concrete catalog entries. -/
def exSrc : LibrarySource := ⟨"builtin", "/ext/libs/std.jar"⟩

/-- Library `L`, depending on `A` and `B` (spec property 4). -/
def exLibL : SourcedLibraryMetadata :=
  ⟨"L", "library L", ["A", "B"], ["L.vdmsl"], exSrc⟩

/-- Library `A`, depending on `C`. -/
def exLibA : SourcedLibraryMetadata :=
  ⟨"A", "library A", ["C"], ["A.vdmsl"], exSrc⟩

/-- Library `B`, no dependencies. -/
def exLibB : SourcedLibraryMetadata :=
  ⟨"B", "library B", [], ["B.vdmsl"], exSrc⟩

/-- Library `C`, no dependencies. -/
def exLibC : SourcedLibraryMetadata :=
  ⟨"C", "library C", [], ["C.vdmsl"], exSrc⟩

/-- The catalog of spec property 4: `L` depends on `A` and `B`, `A` on `C`,
all present. -/
def exCatalog : LibrarySourceMap :=
  [("L", exLibL), ("A", exLibA), ("B", exLibB), ("C", exLibC)]

/-- The same catalog with `C` absent (spec property 5). -/
def exCatalogNoC : LibrarySourceMap :=
  [("L", exLibL), ("A", exLibA), ("B", exLibB)]

/-- A rank function witnessing that `exCatalog` is acyclic. -/
def exRank (s : String) : Nat :=
  if s = "L" then 2 else if s = "A" then 1 else 0

/-- Entry `A` of the two-entry dependency cycle. -/
def cycLibA : SourcedLibraryMetadata := ⟨"A", "cyclic A", ["B"], [], exSrc⟩

/-- Entry `B` of the two-entry dependency cycle. -/
def cycLibB : SourcedLibraryMetadata := ⟨"B", "cyclic B", ["A"], [], exSrc⟩

/-- A catalog with a dependency cycle between two entries. -/
def cycCatalog : LibrarySourceMap := [("A", cycLibA), ("B", cycLibB)]

/-- First (winning) source of the name collision example. -/
def dupSrc1 : LibrarySource := ⟨"user", "/u/one.jar"⟩

/-- Second (losing) source of the name collision example. -/
def dupSrc2 : LibrarySource := ⟨"user", "/u/two.jar"⟩

/-- Candidate for name `X` discovered first, from `/u/one.jar`. -/
def dupLib1 : SourcedLibraryMetadata :=
  ⟨"X", "from one.jar", [], ["X.vdmsl"], dupSrc1⟩

/-- Candidate for name `X` discovered second, from `/u/two.jar`. -/
def dupLib2 : SourcedLibraryMetadata :=
  ⟨"X", "from two.jar", [], ["X.vdmsl"], dupSrc2⟩

/-- One name with two candidates: `dupLib1` (discovered first) wins. -/
def dupCandidates : LibrarySourceMapDuplicates := [("X", [dupLib1, dupLib2])]

/-- Environment for the source-catalog counterexample: one user-declared jar
(`u.jar`), one host-extension-contributed jar (`h.jar`), and one built-in jar
per kind, all with distinct basenames, all valid. -/
def envC3 : VDMJExtensionsHandler.VDMJEnv where
  fs :=
    { existsPath := fun p =>
        decide (p ∈ ["/w/u.jar", "/ext/libs", "/ext/plugins", "/ext/annot"])
      isDir := fun p => decide (p ∈ ["/ext/libs", "/ext/plugins", "/ext/annot"])
      dirJars := fun p =>
        if p = "/ext/libs" then ["/ext/libs/b.jar"]
        else if p = "/ext/plugins" then ["/ext/plugins/bp.jar"]
        else if p = "/ext/annot" then ["/ext/annot/ba.jar"]
        else [] }
  folderSettings := ["/w/u.jar"]
  userOrWorkspaceSettings := []
  wsRoot := "/w"
  hostJarPaths := ["/h/h.jar"]
  includedLibsPath := "/ext/libs"
  includedPluginsPath := "/ext/plugins"
  includedAnnotationsPath := "/ext/annot"
  jarOpens := fun _ => true
  jarHasEntry := fun _ _ => true

/-- Environment where a built-in plugin jar has the same basename `x.jar` as
a user-declared one. -/
def envC3b : VDMJExtensionsHandler.VDMJEnv where
  fs :=
    { existsPath := fun p => decide (p ∈ ["/w/x.jar", "/ext/plugins"])
      isDir := fun p => decide (p = "/ext/plugins")
      dirJars := fun p => if p = "/ext/plugins" then ["/ext/plugins/x.jar"] else [] }
  folderSettings := ["/w/x.jar"]
  userOrWorkspaceSettings := []
  wsRoot := "/w"
  hostJarPaths := []
  includedLibsPath := "/ext/libs"
  includedPluginsPath := "/ext/plugins"
  includedAnnotationsPath := "/ext/annot"
  jarOpens := fun _ => true
  jarHasEntry := fun _ _ => true

/-- File system for the scope-merge counterexample: two plain jar files. -/
def fsC4 : FileSys where
  existsPath := fun p => decide (p ∈ ["/x/a.jar", "/y/b.jar"])
  isDir := fun _ => false
  dirJars := fun _ => []

/-- Folder-scope declared list of the scope-merge counterexample. -/
def folderSettingsC4 : List String := ["/x/a.jar", "/x/a.jar"]

/-- Workspace/user-scope declared list of the scope-merge counterexample. -/
def uwsSettingsC4 : List String := ["/x/a.jar", "/y/b.jar"]

/-- Modelled from the spec (§4.3, "otherwise" branch): the merged result is
the folder-scope resolved paths first, followed by exactly those
workspace/user-scope resolved paths whose basename does not already occur
among the folder-scope resolved paths. -/
def specScopeMerge (fs : FileSys) (folderSettings uws : List String)
    (wsRoot : String) : List String :=
  let f := (resolveJarPathsCore fs folderSettings (some wsRoot)).1
  f ++ (resolveJarPathsCore fs uws none).1.filter
    (fun p => decide (basename p ∉ f.map basename))

/-- A library jar whose `META-INF/library.json` entry is absent. -/
def badLibSrc : LibrarySource := ⟨"user", "/u/bad.jar"⟩

/-- A well-formed library jar. -/
def goodLibSrc : LibrarySource := ⟨"user", "/u/good.jar"⟩

/-- Archive contents for the malformed-library-jar counterexample. -/
def envLibC6 : AddLibraryHandler.LibJarEnv where
  jarOpens := fun _ => true
  libraryJson := fun p =>
    if p = "/u/good.jar" then
      some [("vdmsl", [⟨"MATH", "maths library", [], ["MATH.vdmsl"]⟩])]
    else none

/-- A plugin jar whose `META-INF/plugin.json` entry is absent. -/
def badPlugSrc : ExtensionSource := ⟨"user", "/u/badp.jar"⟩

/-- A well-formed plugin jar. -/
def goodPlugSrc : ExtensionSource := ⟨"user", "/u/goodp.jar"⟩

/-- Archive contents for the malformed-plugin-jar example. -/
def envPlugC6 : ManagePluginsHandler.PluginJarEnv where
  jarOpens := fun _ => true
  pluginJson := fun p =>
    if p = "/u/goodp.jar" then
      some ⟨"quickcheck", "qc plugin", ["vdmsl"], none⟩
    else none

/-- Source shared by the enablement example plugins. -/
def exPluginSrc : ExtensionSource := ⟨"user", "/u/p.jar"⟩

/-- Plugin `P1`, initially enabled. -/
def p1State : PluginMetadataState :=
  ⟨"P1", "plugin one", ["vdmsl"], "standard", exPluginSrc, true⟩

/-- Plugin `P2`, initially disabled. -/
def p2State : PluginMetadataState :=
  ⟨"P2", "plugin two", ["vdmsl"], "standard", exPluginSrc, false⟩

/-- The enablement state `{P1: enabled, P2: disabled}`. -/
def exPluginState : List (String × PluginMetadataState) :=
  [("P1", p1State), ("P2", p2State)]

/-- A fresh two-entry jar handle. -/
def exJar : JarFileState :=
  JarFile.openJar
    [⟨"META-INF/plugin.json", "\x7b\x7d"⟩, ⟨"Other.vdmsl", "module Other"⟩]

/-! ## Theorems: JavaScript map lemmas -/

section JsMapLemmas

variable {κ : Type u} {α : Type v} [DecidableEq κ]

@[simp]
theorem jsGet_nil (k : κ) : jsGet ([] : List (κ × α)) k = none := rfl

theorem jsGet_cons (p : κ × α) (m : List (κ × α)) (k : κ) :
    jsGet (p :: m) k = if p.1 = k then some p.2 else jsGet m k := rfl

theorem jsGet_append (m₁ m₂ : List (κ × α)) (k : κ) :
    jsGet (m₁ ++ m₂) k = (jsGet m₁ k).orElse (fun _ => jsGet m₂ k) := by
  induction m₁ with
  | nil => simp
  | cons p t ih =>
    by_cases h : p.1 = k <;> simp [jsGet_cons, h, ih]

theorem jsGet_eq_some_mem {m : List (κ × α)} {k : κ} {v : α}
    (h : jsGet m k = some v) : (k, v) ∈ m := by
  induction m with
  | nil => simp [jsGet] at h
  | cons p t ih =>
    rw [jsGet_cons] at h
    by_cases hp : p.1 = k
    · rw [if_pos hp] at h
      cases h
      cases p
      cases hp
      exact List.mem_cons_self _ _
    · rw [if_neg hp] at h
      exact List.mem_cons_of_mem _ (ih h)

theorem jsGet_isSome_iff {m : List (κ × α)} {k : κ} :
    (jsGet m k).isSome ↔ ∃ v, (k, v) ∈ m := by
  induction m with
  | nil => simp [jsGet]
  | cons p t ih =>
    rw [jsGet_cons]
    by_cases hp : p.1 = k
    · rw [if_pos hp]
      simp only [Option.isSome_some, true_iff]
      exact ⟨p.2, by cases p; cases hp; exact List.mem_cons_self _ _⟩
    · rw [if_neg hp, ih]
      constructor
      · rintro ⟨v, hv⟩
        exact ⟨v, List.mem_cons_of_mem _ hv⟩
      · rintro ⟨v, hv⟩
        rcases List.mem_cons.mp hv with h | h
        · exact absurd (congrArg Prod.fst h).symm hp
        · exact ⟨v, h⟩

theorem jsGet_eq_none_iff {m : List (κ × α)} {k : κ} :
    jsGet m k = none ↔ ∀ v, (k, v) ∉ m := by
  rw [← Option.not_isSome_iff_eq_none, jsGet_isSome_iff]
  push_neg
  rfl

theorem jsGet_map_update (m : List (κ × α)) (k k' : κ) (v : α) :
    jsGet (m.map (fun p => if p.1 = k then (k, v) else p)) k' =
      if k' = k then (if m.any (fun p => p.1 = k) then some v else none)
      else jsGet m k' := by
  induction m with
  | nil => simp
  | cons p t ih =>
    by_cases hp : p.1 = k
    · simp only [List.map_cons, if_pos hp]
      rw [jsGet_cons]
      by_cases hk : k' = k
      · subst hk
        simp [hp]
      · have h1 : ¬ ((k, v).1 = k') := fun h => hk h.symm
        have h2 : ¬ (p.1 = k') := fun h => hk (h ▸ hp)
        rw [if_neg h1, ih, if_neg hk, if_neg hk, jsGet_cons, if_neg h2]
    · simp only [List.map_cons, if_neg hp]
      rw [jsGet_cons, jsGet_cons, ih]
      by_cases hk : k' = k
      · subst hk
        rw [if_neg hp, if_pos rfl, if_pos rfl]
        have : (p :: t).any (fun p => decide (p.1 = k')) =
            t.any (fun p => decide (p.1 = k')) := by
          simp [List.any_cons, hp]
        rw [this]
      · rw [if_neg hk, if_neg hk]

theorem jsGet_jsSet (m : List (κ × α)) (k k' : κ) (v : α) :
    jsGet (jsSet m k v) k' = if k' = k then some v else jsGet m k' := by
  unfold jsSet
  by_cases hany : m.any (fun p => p.1 = k)
  · rw [if_pos hany, jsGet_map_update, hany]
    by_cases hk : k' = k <;> simp [hk]
  · rw [if_neg hany, jsGet_append]
    have hnone : jsGet m k = none := by
      rw [jsGet_eq_none_iff]
      intro v' hv'
      exact hany (List.any_eq_true.mpr ⟨(k, v'), hv', by simp⟩)
    by_cases hk : k' = k
    · subst hk
      rw [hnone]
      simp [jsGet_cons]
    · rw [if_neg hk]
      have h2 : jsGet [(k, v)] k' = none := by
        rw [jsGet_cons, if_neg (fun h => hk h.symm)]
        rfl
      rw [h2]
      cases jsGet m k' <;> rfl

theorem mem_jsSet {m : List (κ × α)} {k : κ} {v : α} {q : κ × α}
    (h : q ∈ jsSet m k v) : q ∈ m ∨ q = (k, v) := by
  unfold jsSet at h
  by_cases hany : m.any (fun p => p.1 = k)
  · rw [if_pos hany] at h
    rcases List.mem_map.mp h with ⟨p, hp, hpq⟩
    by_cases hpk : p.1 = k
    · rw [if_pos hpk] at hpq
      exact Or.inr hpq.symm
    · rw [if_neg hpk] at hpq
      exact Or.inl (hpq ▸ hp)
  · rw [if_neg hany] at h
    rcases List.mem_append.mp h with h' | h'
    · exact Or.inl h'
    · exact Or.inr (List.mem_singleton.mp h')

theorem mem_foldl_jsSet {l : List (κ × α)} {acc : List (κ × α)} {q : κ × α}
    (h : q ∈ l.foldl (fun m p => jsSet m p.1 p.2) acc) : q ∈ acc ∨ q ∈ l := by
  induction l generalizing acc with
  | nil => exact Or.inl h
  | cons p t ih =>
    rcases ih (by simpa using h) with h' | h'
    · rcases mem_jsSet h' with h'' | h''
      · exact Or.inl h''
      · exact Or.inr (by rw [h'']; exact List.mem_cons_self _ _)
    · exact Or.inr (List.mem_cons_of_mem _ h')

theorem mem_jsMapOf {l : List (κ × α)} {q : κ × α} (h : q ∈ jsMapOf l) :
    q ∈ l := by
  rcases mem_foldl_jsSet h with h' | h'
  · simp at h'
  · exact h'

@[simp]
theorem lastVal_nil (k : κ) : lastVal ([] : List (κ × α)) k = none := rfl

theorem jsGet_foldl_jsSet (l : List (κ × α)) (acc : List (κ × α)) (k : κ) :
    jsGet (l.foldl (fun m p => jsSet m p.1 p.2) acc) k =
      match lastVal l k with
      | some v => some v
      | none => jsGet acc k := by
  induction l generalizing acc with
  | nil => simp
  | cons p t ih =>
    simp only [List.foldl_cons]
    rw [ih]
    show _ = match (match lastVal t k with
      | some v => some v
      | none => if p.1 = k then some p.2 else none) with
      | some v => some v
      | none => jsGet acc k
    cases h : lastVal t k with
    | some v => simp
    | none =>
      simp only []
      rw [jsGet_jsSet]
      by_cases hk : k = p.1
      · rw [if_pos hk, if_pos hk.symm]
      · rw [if_neg hk, if_neg (fun h' => hk h'.symm)]

theorem jsGet_jsMapOf (l : List (κ × α)) (k : κ) :
    jsGet (jsMapOf l) k = lastVal l k := by
  unfold jsMapOf
  rw [jsGet_foldl_jsSet]
  cases lastVal l k <;> simp

theorem lastVal_isSome_iff {l : List (κ × α)} {k : κ} :
    (lastVal l k).isSome ↔ ∃ v, (k, v) ∈ l := by
  induction l with
  | nil => simp
  | cons p t ih =>
    show (match lastVal t k with
      | some v => some v
      | none => if p.1 = k then some p.2 else none).isSome ↔ _
    cases h : lastVal t k with
    | some v =>
      simp only [Option.isSome_some, true_iff]
      rcases ih.mp (by rw [h]; rfl) with ⟨v', hv'⟩
      exact ⟨v', List.mem_cons_of_mem _ hv'⟩
    | none =>
      by_cases hp : p.1 = k
      · rw [if_pos hp]
        simp only [Option.isSome_some, true_iff]
        exact ⟨p.2, by cases p; cases hp; exact List.mem_cons_self _ _⟩
      · rw [if_neg hp]
        simp only [Option.isSome_none]
        constructor
        · intro hfalse
          exact absurd hfalse (by simp)
        · rintro ⟨v, hv⟩
          rcases List.mem_cons.mp hv with h' | h'
          · exact absurd (congrArg Prod.fst h').symm hp
          · have : (lastVal t k).isSome := ih.mpr ⟨v, h'⟩
            rw [h] at this
            simp at this

theorem lastVal_eq_some_mem {l : List (κ × α)} {k : κ} {v : α}
    (h : lastVal l k = some v) : (k, v) ∈ l := by
  induction l with
  | nil => simp at h
  | cons p t ih =>
    rw [show lastVal (p :: t) k = match lastVal t k with
      | some v => some v
      | none => if p.1 = k then some p.2 else none from rfl] at h
    cases h' : lastVal t k with
    | some v' =>
      rw [h'] at h
      cases h
      exact List.mem_cons_of_mem _ (ih h')
    | none =>
      rw [h'] at h
      by_cases hp : p.1 = k
      · rw [if_pos hp] at h
        cases h
        cases p
        cases hp
        exact List.mem_cons_self _ _
      · rw [if_neg hp] at h
        cases h

theorem jsGet_jsMapOf_isSome_iff {l : List (κ × α)} {k : κ} :
    (jsGet (jsMapOf l) k).isSome ↔ ∃ v, (k, v) ∈ l := by
  rw [jsGet_jsMapOf]
  exact lastVal_isSome_iff

theorem jsGet_jsMapOf_mem {l : List (κ × α)} {k : κ} {v : α}
    (h : jsGet (jsMapOf l) k = some v) : (k, v) ∈ l := by
  rw [jsGet_jsMapOf] at h
  exact lastVal_eq_some_mem h

end JsMapLemmas

theorem mem_jsSetOf {α : Type u} [DecidableEq α] {l : List α} {x : α} :
    x ∈ jsSetOf l ↔ x ∈ l := by
  unfold jsSetOf
  suffices h : ∀ acc : List α,
      x ∈ l.foldl (fun acc x => if x ∈ acc then acc else acc ++ [x]) acc ↔
        x ∈ acc ∨ x ∈ l by
    rw [h []]
    simp
  induction l with
  | nil => intro acc; simp
  | cons y t ih =>
    intro acc
    simp only [List.foldl_cons]
    rw [ih]
    by_cases hy : y ∈ acc
    · rw [if_pos hy]
      constructor
      · rintro (h | h)
        · exact Or.inl h
        · exact Or.inr (List.mem_cons_of_mem _ h)
      · rintro (h | h)
        · exact Or.inl h
        · rcases List.mem_cons.mp h with rfl | h'
          · exact Or.inl hy
          · exact Or.inr h'
    · rw [if_neg hy]
      constructor
      · rintro (h | h)
        · rcases List.mem_append.mp h with h' | h'
          · exact Or.inl h'
          · rcases List.mem_singleton.mp h' with rfl
            exact Or.inr (List.mem_cons_self _ _)
        · exact Or.inr (List.mem_cons_of_mem _ h)
      · rintro (h | h)
        · exact Or.inl (List.mem_append.mpr (Or.inl h))
        · rcases List.mem_cons.mp h with rfl | h'
          · exact Or.inl (List.mem_append.mpr (Or.inr (List.mem_singleton.mpr rfl)))
          · exact Or.inr h'

/-! ## Theorems: the dependency resolver -/

namespace AddLibraryHandler

@[simp]
theorem resolveDepsGo_zero (m : LibrarySourceMap) (ds : List String)
    (acc : LibrarySourceMap × List String) :
    resolveDepsGo m 0 ds acc = none := rfl

@[simp]
theorem resolveDepsGo_nil (m : LibrarySourceMap) (fuel : Nat)
    (acc : LibrarySourceMap × List String) :
    resolveDepsGo m (fuel + 1) [] acc = some acc := rfl

theorem resolveDepsGo_cons_absent {m : LibrarySourceMap} {d : String}
    (fuel : Nat) (ds : List String) (acc : LibrarySourceMap × List String)
    (h : jsGet m d = none) :
    resolveDepsGo m (fuel + 1) (d :: ds) acc =
      resolveDepsGo m fuel ds (acc.1, acc.2 ++ [d]) := by
  rw [resolveDepsGo, h]

theorem resolveDepsGo_cons_present {m : LibrarySourceMap} {d : String}
    {dep : SourcedLibraryMetadata} (fuel : Nat) (ds : List String)
    (acc : LibrarySourceMap × List String) (h : jsGet m d = some dep) :
    resolveDepsGo m (fuel + 1) (d :: ds) acc =
      match resolveDepsGo m fuel dep.depends ([], []) with
      | none => none
      | some su =>
        resolveDepsGo m fuel ds
          (jsMapOf (acc.1 ++ (d, dep) :: su.1), acc.2 ++ su.2) := by
  rw [resolveDepsGo, h]

theorem depReach_trans {m : LibrarySourceMap} {ds₁ ds₂ : List String}
    {k : String} (h : ∀ j ∈ ds₂, DepReach m ds₁ j)
    (hr : DepReach m ds₂ k) : DepReach m ds₁ k := by
  induction hr with
  | base hd => exact h _ hd
  | step _ hget hdep ih => exact DepReach.step ih hget hdep

theorem depReach_head {m : LibrarySourceMap} (d : String) (ds : List String) :
    DepReach m (d :: ds) d :=
  DepReach.base (List.mem_cons_self d ds)

theorem depReach_tail {m : LibrarySourceMap} {ds : List String} {k : String}
    (d : String) (hr : DepReach m ds k) : DepReach m (d :: ds) k :=
  depReach_trans (fun _ hj => DepReach.base (List.mem_cons_of_mem d hj)) hr

theorem depReach_of_dep {m : LibrarySourceMap} {d k : String}
    {dep : SourcedLibraryMetadata} (ds : List String)
    (h : jsGet m d = some dep) (hr : DepReach m dep.depends k) :
    DepReach m (d :: ds) k :=
  depReach_trans (fun _ hj => DepReach.step (depReach_head d ds) h hj) hr

theorem depReach_nil {m : LibrarySourceMap} {k : String} :
    ¬ DepReach m [] k := by
  intro h
  generalize hds : ([] : List String) = ds at h
  induction h with
  | base hd => rw [← hds] at hd; simp at hd
  | step _ _ _ ih => exact ih

theorem depReach_cons_elim {m : LibrarySourceMap} {d k : String}
    {ds : List String} (h : DepReach m (d :: ds) k) :
    k = d ∨ (∃ dep, jsGet m d = some dep ∧ DepReach m dep.depends k) ∨
      DepReach m ds k := by
  generalize hds : (d :: ds : List String) = l at h
  induction h with
  | base hd =>
    rw [← hds] at hd
    rcases List.mem_cons.mp hd with h' | h'
    · exact Or.inl h'
    · exact Or.inr (Or.inr (DepReach.base h'))
  | step _ hget hdep ih =>
    rcases ih with h' | ⟨dep', hget', hr'⟩ | h'
    · subst h'
      exact Or.inr (Or.inl ⟨_, hget, DepReach.base hdep⟩)
    · exact Or.inr (Or.inl ⟨dep', hget', DepReach.step hr' hget hdep⟩)
    · exact Or.inr (Or.inr (DepReach.step h' hget hdep))

/-- Characterisation of a completed walk: relative to the accumulator, the
resolved map gains exactly the catalog-present reachable names (with their
catalog entries), and the unresolved list gains exactly the catalog-absent
reachable names. -/
theorem resolveDepsGo_spec (m : LibrarySourceMap) (fuel : Nat) :
    ∀ (ds : List String) (acc out : LibrarySourceMap × List String),
      resolveDepsGo m fuel ds acc = some out →
      ((∀ k, (jsGet out.1 k).isSome ↔
          ((jsGet acc.1 k).isSome ∨ (DepReach m ds k ∧ (jsGet m k).isSome))) ∧
       ((∀ k v, (k, v) ∈ acc.1 → jsGet m k = some v) →
          (∀ k v, (k, v) ∈ out.1 → jsGet m k = some v)) ∧
       (∀ k, k ∈ out.2 ↔
          (k ∈ acc.2 ∨ (DepReach m ds k ∧ jsGet m k = none)))) := by
  induction fuel with
  | zero =>
    intro ds acc out h
    rw [resolveDepsGo_zero] at h
    cases h
  | succ fuel ih =>
    intro ds acc out h
    cases ds with
    | nil =>
      rw [resolveDepsGo_nil] at h
      injection h with h
      subst h
      refine ⟨fun k => ?_, fun hacc => hacc, fun k => ?_⟩
      · constructor
        · exact fun h' => Or.inl h'
        · rintro (h' | ⟨hr, _⟩)
          · exact h'
          · exact absurd hr depReach_nil
      · constructor
        · exact fun h' => Or.inl h'
        · rintro (h' | ⟨hr, _⟩)
          · exact h'
          · exact absurd hr depReach_nil
    | cons d ds =>
      cases hd : jsGet m d with
      | none =>
        rw [resolveDepsGo_cons_absent _ _ _ hd] at h
        obtain ⟨h1, h2, h3⟩ := ih ds (acc.1, acc.2 ++ [d]) out h
        refine ⟨fun k => ?_, h2, fun k => ?_⟩
        · rw [h1 k]
          constructor
          · rintro (h' | ⟨hr, hp⟩)
            · exact Or.inl h'
            · exact Or.inr ⟨depReach_tail d hr, hp⟩
          · rintro (h' | ⟨hr, hp⟩)
            · exact Or.inl h'
            · rcases depReach_cons_elim hr with rfl | ⟨dep, hget, _⟩ | h''
              · rw [hd] at hp
                simp at hp
              · rw [hd] at hget
                cases hget
              · exact Or.inr ⟨h'', hp⟩
        · rw [h3 k]
          constructor
          · rintro (h' | ⟨hr, hp⟩)
            · rcases List.mem_append.mp h' with h'' | h''
              · exact Or.inl h''
              · rcases List.mem_singleton.mp h'' with rfl
                exact Or.inr ⟨depReach_head _ _, hd⟩
            · exact Or.inr ⟨depReach_tail d hr, hp⟩
          · rintro (h' | ⟨hr, hp⟩)
            · exact Or.inl (List.mem_append.mpr (Or.inl h'))
            · rcases depReach_cons_elim hr with rfl | ⟨dep, hget, _⟩ | h''
              · exact Or.inl
                  (List.mem_append.mpr (Or.inr (List.mem_singleton.mpr rfl)))
              · rw [hd] at hget
                cases hget
              · exact Or.inr ⟨h'', hp⟩
      | some dep =>
        rw [resolveDepsGo_cons_present _ _ _ hd] at h
        cases hsub : resolveDepsGo m fuel dep.depends ([], []) with
        | none =>
          rw [hsub] at h
          cases h
        | some su =>
          rw [hsub] at h
          obtain ⟨s1, s2, s3⟩ := ih dep.depends ([], []) su hsub
          obtain ⟨h1, h2, h3⟩ :=
            ih ds (jsMapOf (acc.1 ++ (d, dep) :: su.1), acc.2 ++ su.2) out h
          have hsu1 : ∀ k, (jsGet su.1 k).isSome ↔
              (DepReach m dep.depends k ∧ (jsGet m k).isSome) := by
            intro k
            rw [s1 k]
            constructor
            · rintro (h' | h')
              · simp at h'
              · exact h'
            · exact fun h' => Or.inr h'
          have hsu2 : ∀ k, k ∈ su.2 ↔
              (DepReach m dep.depends k ∧ jsGet m k = none) := by
            intro k
            rw [s3 k]
            constructor
            · rintro (h' | h')
              · simp at h'
              · exact h'
            · exact fun h' => Or.inr h'
          have hA : ∀ k, (jsGet (jsMapOf (acc.1 ++ (d, dep) :: su.1)) k).isSome ↔
              ((jsGet acc.1 k).isSome ∨ k = d ∨ (jsGet su.1 k).isSome) := by
            intro k
            rw [jsGet_jsMapOf_isSome_iff, jsGet_isSome_iff, jsGet_isSome_iff]
            constructor
            · rintro ⟨v, hv⟩
              rcases List.mem_append.mp hv with h' | h'
              · exact Or.inl ⟨v, h'⟩
              · rcases List.mem_cons.mp h' with h'' | h''
                · exact Or.inr (Or.inl (congrArg Prod.fst h''))
                · exact Or.inr (Or.inr ⟨v, h''⟩)
            · rintro (⟨v, hv⟩ | rfl | ⟨v, hv⟩)
              · exact ⟨v, List.mem_append.mpr (Or.inl hv)⟩
              · exact ⟨dep, List.mem_append.mpr (Or.inr (List.mem_cons_self _ _))⟩
              · exact ⟨v, List.mem_append.mpr (Or.inr (List.mem_cons_of_mem _ hv))⟩
          refine ⟨fun k => ?_, ?_, fun k => ?_⟩
          · rw [h1 k, hA k]
            constructor
            · rintro ((h' | rfl | h') | ⟨hr, hp⟩)
              · exact Or.inl h'
              · exact Or.inr ⟨depReach_head _ _, by rw [hd]; rfl⟩
              · rcases (hsu1 k).mp h' with ⟨hr, hp⟩
                exact Or.inr ⟨depReach_of_dep _ hd hr, hp⟩
              · exact Or.inr ⟨depReach_tail d hr, hp⟩
            · rintro (h' | ⟨hr, hp⟩)
              · exact Or.inl (Or.inl h')
              · rcases depReach_cons_elim hr with rfl | ⟨dep', hget', hr'⟩ | h'
                · exact Or.inl (Or.inr (Or.inl rfl))
                · rw [hd] at hget'
                  injection hget' with hdep
                  subst hdep
                  exact Or.inl (Or.inr (Or.inr ((hsu1 k).mpr ⟨hr', hp⟩)))
                · exact Or.inr ⟨h', hp⟩
          · intro hacc
            apply h2
            intro k v hkv
            rcases List.mem_append.mp (mem_jsMapOf hkv) with h' | h'
            · exact hacc k v h'
            · rcases List.mem_cons.mp h' with h'' | h''
              · injection h'' with hk hv'
                subst hk
                subst hv'
                exact hd
              · exact s2 (fun k' v' h0 => absurd h0 (List.not_mem_nil _)) k v h''
          · rw [h3 k]
            constructor
            · rintro (h' | ⟨hr, hp⟩)
              · rcases List.mem_append.mp h' with h'' | h''
                · exact Or.inl h''
                · rcases (hsu2 k).mp h'' with ⟨hr, hp⟩
                  exact Or.inr ⟨depReach_of_dep _ hd hr, hp⟩
              · exact Or.inr ⟨depReach_tail d hr, hp⟩
            · rintro (h' | ⟨hr, hp⟩)
              · exact Or.inl (List.mem_append.mpr (Or.inl h'))
              · rcases depReach_cons_elim hr with rfl | ⟨dep', hget', hr'⟩ | h'
                · rw [hd] at hp
                  cases hp
                · rw [hd] at hget'
                  injection hget' with hdep
                  subst hdep
                  exact Or.inl
                    (List.mem_append.mpr (Or.inr ((hsu2 k).mpr ⟨hr', hp⟩)))
                · exact Or.inr ⟨h', hp⟩

/-- More fuel never changes a completed result. -/
theorem resolveDepsGo_mono (m : LibrarySourceMap) :
    ∀ (fuel : Nat) (ds : List String) (acc out : LibrarySourceMap × List String),
      resolveDepsGo m fuel ds acc = some out →
      ∀ fuel', fuel ≤ fuel' → resolveDepsGo m fuel' ds acc = some out := by
  intro fuel
  induction fuel with
  | zero =>
    intro ds acc out h
    rw [resolveDepsGo_zero] at h
    cases h
  | succ fuel ih =>
    intro ds acc out h fuel' hle
    obtain ⟨fuel'', rfl⟩ : ∃ f, fuel' = f + 1 := ⟨fuel' - 1, by omega⟩
    have hle' : fuel ≤ fuel'' := by omega
    cases ds with
    | nil =>
      rw [resolveDepsGo_nil] at h
      rw [resolveDepsGo_nil]
      exact h
    | cons d ds =>
      cases hd : jsGet m d with
      | none =>
        rw [resolveDepsGo_cons_absent _ _ _ hd] at h
        rw [resolveDepsGo_cons_absent _ _ _ hd]
        exact ih _ _ _ h _ hle'
      | some dep =>
        rw [resolveDepsGo_cons_present _ _ _ hd] at h
        rw [resolveDepsGo_cons_present _ _ _ hd]
        cases hsub : resolveDepsGo m fuel dep.depends ([], []) with
        | none =>
          rw [hsub] at h
          cases h
        | some su =>
          rw [hsub] at h
          rw [ih _ _ _ hsub _ hle']
          exact ih _ _ _ h _ hle'

/-- The set of catalog-present reachable names is finite. -/
theorem reachSet_finite (m : LibrarySourceMap) (ds : List String) :
    {k | DepReach m ds k ∧ (jsGet m k).isSome}.Finite := by
  apply Set.Finite.subset (List.finite_toSet (m.map Prod.fst))
  rintro k ⟨_, hp⟩
  rw [jsGet_isSome_iff] at hp
  rcases hp with ⟨v, hv⟩
  simp only [List.coe_toFinset, Set.mem_setOf_eq, List.mem_map]
  exact ⟨(k, v), hv, rfl⟩

/-- On an acyclic catalog the walk completes for some fuel. -/
theorem resolveDepsGo_total (m : LibrarySourceMap) (hacy : Acyclic m) :
    ∀ (n : Nat) (ds : List String),
      {k | DepReach m ds k ∧ (jsGet m k).isSome}.ncard ≤ n →
      ∀ acc, ∃ fuel out, resolveDepsGo m fuel ds acc = some out := by
  intro n
  induction n using Nat.strong_induction_on with
  | _ n IH =>
    intro ds
    induction ds with
    | nil =>
      intro _ acc
      exact ⟨1, acc, rfl⟩
    | cons d ds ihds =>
      intro hcard acc
      have hsubset : {k | DepReach m ds k ∧ (jsGet m k).isSome} ⊆
          {k | DepReach m (d :: ds) k ∧ (jsGet m k).isSome} := by
        rintro k ⟨hr, hp⟩
        exact ⟨depReach_tail d hr, hp⟩
      have hcard_ds : {k | DepReach m ds k ∧ (jsGet m k).isSome}.ncard ≤ n :=
        le_trans (Set.ncard_le_ncard hsubset (reachSet_finite m (d :: ds))) hcard
      cases hd : jsGet m d with
      | none =>
        obtain ⟨fuel, out, hout⟩ := ihds hcard_ds (acc.1, acc.2 ++ [d])
        refine ⟨fuel + 1, out, ?_⟩
        rw [resolveDepsGo_cons_absent _ _ _ hd]
        exact hout
      | some dep =>
        have hd_mem : d ∈ {k | DepReach m (d :: ds) k ∧ (jsGet m k).isSome} :=
          ⟨depReach_head d ds, by rw [hd]; rfl⟩
        have hsub_dep : {k | DepReach m dep.depends k ∧ (jsGet m k).isSome} ⊆
            {k | DepReach m (d :: ds) k ∧ (jsGet m k).isSome} \ {d} := by
          rintro k ⟨hr, hp⟩
          refine ⟨⟨depReach_of_dep ds hd hr, hp⟩, ?_⟩
          intro hk
          rcases Set.mem_singleton_iff.mp hk with rfl
          exact hacy _ _ hd hr
        have hlt : {k | DepReach m dep.depends k ∧ (jsGet m k).isSome}.ncard <
            {k | DepReach m (d :: ds) k ∧ (jsGet m k).isSome}.ncard := by
          calc {k | DepReach m dep.depends k ∧ (jsGet m k).isSome}.ncard
              ≤ ({k | DepReach m (d :: ds) k ∧ (jsGet m k).isSome} \ {d}).ncard :=
                Set.ncard_le_ncard hsub_dep
                  ((reachSet_finite m (d :: ds)).diff _)
            _ < {k | DepReach m (d :: ds) k ∧ (jsGet m k).isSome}.ncard :=
                Set.ncard_diff_singleton_lt_of_mem hd_mem
                  (reachSet_finite m (d :: ds))
        obtain ⟨f1, su, hsu⟩ :=
          IH {k | DepReach m dep.depends k ∧ (jsGet m k).isSome}.ncard
            (lt_of_lt_of_le hlt hcard) dep.depends le_rfl ([], [])
        obtain ⟨f2, out, hout⟩ :=
          ihds hcard_ds (jsMapOf (acc.1 ++ (d, dep) :: su.1), acc.2 ++ su.2)
        refine ⟨max f1 f2 + 1, out, ?_⟩
        rw [resolveDepsGo_cons_present _ _ _ hd]
        rw [resolveDepsGo_mono m f1 _ _ _ hsu (max f1 f2) (le_max_left _ _)]
        exact resolveDepsGo_mono m f2 _ _ _ hout (max f1 f2) (le_max_right _ _)

/-- A reached name's rank is bounded by that of some starting name, given a
rank function decreasing along the depends relation. -/
theorem depReach_rank_le {m : LibrarySourceMap} {rank : String → Nat}
    (hr : ∀ p ∈ m, ∀ d' ∈ (Prod.snd p).depends, rank d' < rank p.1)
    {ds : List String} {k : String} (h : DepReach m ds k) :
    ∃ j ∈ ds, rank k ≤ rank j := by
  induction h with
  | base hd => exact ⟨_, hd, le_rfl⟩
  | step _ hget hdep ih =>
    rcases ih with ⟨j, hj, hle⟩
    have hmem := jsGet_eq_some_mem hget
    have hlt : rank _ < rank _ := hr _ hmem _ hdep
    exact ⟨j, hj, le_trans (le_of_lt hlt) hle⟩

/-- A rank function decreasing along the depends relation certifies
acyclicity; the rank condition is decidable for a concrete catalog. -/
theorem acyclic_of_rank (m : LibrarySourceMap) (rank : String → Nat)
    (hr : ∀ p ∈ m, ∀ d' ∈ (Prod.snd p).depends, rank d' < rank p.1) :
    Acyclic m := by
  intro d dep hget hreach
  rcases depReach_rank_le hr hreach with ⟨j, hj, hle⟩
  have hmem := jsGet_eq_some_mem hget
  have hlt : rank j < rank d := hr _ hmem _ hj
  exact absurd hle (not_le.mpr hlt)

end AddLibraryHandler

namespace AddLibraryHandler

/-- Top-level form of the walk characterisation: a completed
`resolveLibraryDependencies` returns exactly the catalog-present reachable
names (with their catalog entries) as `resolved` and exactly the
catalog-absent reachable names as `unresolved`. -/
theorem resolveLibraryDependencies_spec {lib : SourcedLibraryMetadata}
    {m : LibrarySourceMap} {fuel : Nat} {r : DependencyResolutionResult}
    (h : resolveLibraryDependencies lib m fuel = some r) :
    (∀ k v, jsGet r.resolved k = some v ↔
      (DepReach m lib.depends k ∧ jsGet m k = some v)) ∧
    (∀ k, k ∈ r.unresolved ↔
      (DepReach m lib.depends k ∧ jsGet m k = none)) := by
  unfold resolveLibraryDependencies at h
  cases hout : resolveDepsGo m fuel lib.depends ([], []) with
  | none =>
    rw [hout] at h
    cases h
  | some out =>
    rw [hout] at h
    injection h with h
    subst h
    obtain ⟨h1, h2, h3⟩ := resolveDepsGo_spec m fuel lib.depends ([], []) out hout
    have hvac : ∀ k v, (k, v) ∈ (([], []) :
        LibrarySourceMap × List String).1 → jsGet m k = some v :=
      fun k v h0 => absurd h0 (List.not_mem_nil _)
    constructor
    · intro k v
      constructor
      · intro hv
        have hcat := h2 hvac k v (jsGet_eq_some_mem hv)
        have hs : (jsGet out.1 k).isSome := by rw [hv]; rfl
        rcases (h1 k).mp hs with h' | ⟨hr, _⟩
        · simp at h'
        · exact ⟨hr, hcat⟩
      · rintro ⟨hr, hv⟩
        have hs : (jsGet out.1 k).isSome :=
          (h1 k).mpr (Or.inr ⟨hr, by rw [hv]; rfl⟩)
        obtain ⟨v', hv'⟩ := Option.isSome_iff_exists.mp hs
        have hcat := h2 hvac k v' (jsGet_eq_some_mem hv')
        rw [hv] at hcat
        injection hcat with hvv
        rw [hv', hvv]
    · intro k
      rw [h3 k]
      constructor
      · rintro (h' | h')
        · simp at h'
        · exact h'
      · exact fun h' => Or.inr h'

/-- On an acyclic catalog `resolveLibraryDependencies` completes for some
fuel. -/
theorem resolveLibraryDependencies_total (m : LibrarySourceMap)
    (hacy : Acyclic m) (lib : SourcedLibraryMetadata) :
    ∃ fuel r, resolveLibraryDependencies lib m fuel = some r := by
  obtain ⟨fuel, out, hout⟩ :=
    resolveDepsGo_total m hacy
      {k | DepReach m lib.depends k ∧ (jsGet m k).isSome}.ncard
      lib.depends le_rfl ([], [])
  refine ⟨fuel, ⟨out.1, out.2⟩, ?_⟩
  unfold resolveLibraryDependencies
  rw [hout]
  rfl

/-- On the two-entry cyclic catalog the walk never completes, whatever the
fuel. -/
theorem cycCatalog_go_none :
    ∀ fuel : Nat,
      (∀ acc, resolveDepsGo cycCatalog fuel ["A"] acc = none) ∧
      (∀ acc, resolveDepsGo cycCatalog fuel ["B"] acc = none) := by
  intro fuel
  induction fuel with
  | zero => exact ⟨fun _ => rfl, fun _ => rfl⟩
  | succ fuel ih =>
    constructor
    · intro acc
      rw [resolveDepsGo_cons_present fuel [] acc
        (show jsGet cycCatalog "A" = some cycLibA by decide)]
      rw [show cycLibA.depends = ["B"] from rfl, ih.2 ([], [])]
    · intro acc
      rw [resolveDepsGo_cons_present fuel [] acc
        (show jsGet cycCatalog "B" = some cycLibB by decide)]
      rw [show cycLibB.depends = ["A"] from rfl, ih.1 ([], [])]

end AddLibraryHandler

/-- C1.  For every catalog whose depends relation is acyclic and every
selected library `L` present in it, `resolveLibraryDependencies(L, catalog)`
completes and returns a result whose `resolved` map contains exactly the
catalog-present members of the transitive closure of `L`'s depends names
(never `L` itself), and whose `unresolved` list contains exactly the
dependency names encountered in the walk that are absent from the catalog.
In the concrete shape of spec property 4 (`L` depends on `A` and `B`, `A`
depends on `C`, all present) `resolved` is exactly `{A, B, C}` and
`unresolved` is empty, and when `C` is absent `unresolved` is exactly
`["C"]`. -/
theorem C1_dependency_closure :
    (∀ (m : LibrarySourceMap) (lib : SourcedLibraryMetadata),
        AddLibraryHandler.Acyclic m → jsGet m lib.name = some lib →
        ∃ fuel r,
          AddLibraryHandler.resolveLibraryDependencies lib m fuel = some r ∧
          (∀ k v, jsGet r.resolved k = some v ↔
            (AddLibraryHandler.DepReach m lib.depends k ∧ jsGet m k = some v)) ∧
          jsGet r.resolved lib.name = none ∧
          (∀ k, k ∈ r.unresolved ↔
            (AddLibraryHandler.DepReach m lib.depends k ∧ jsGet m k = none))) ∧
    AddLibraryHandler.resolveLibraryDependencies exLibL exCatalog 9 =
      some ⟨[("A", exLibA), ("C", exLibC), ("B", exLibB)], []⟩ ∧
    AddLibraryHandler.resolveLibraryDependencies exLibL exCatalogNoC 9 =
      some ⟨[("A", exLibA), ("B", exLibB)], ["C"]⟩ := by
  refine ⟨?_, by decide, by decide⟩
  intro m lib hacy hlib
  obtain ⟨fuel, r, hr⟩ :=
    AddLibraryHandler.resolveLibraryDependencies_total m hacy lib
  obtain ⟨hres, hunres⟩ := AddLibraryHandler.resolveLibraryDependencies_spec hr
  refine ⟨fuel, r, hr, hres, ?_, hunres⟩
  cases hsel : jsGet r.resolved lib.name with
  | none => rfl
  | some v =>
    exfalso
    exact hacy _ _ hlib ((hres _ _).mp hsel).1

/-- Witness for C1 at the concrete acyclic catalog of spec property 4. -/
theorem C1_dependency_closure_witness :
    ∃ fuel r,
      AddLibraryHandler.resolveLibraryDependencies exLibL exCatalog fuel = some r ∧
      (∀ k v, jsGet r.resolved k = some v ↔
        (AddLibraryHandler.DepReach exCatalog exLibL.depends k ∧
          jsGet exCatalog k = some v)) ∧
      jsGet r.resolved exLibL.name = none ∧
      (∀ k, k ∈ r.unresolved ↔
        (AddLibraryHandler.DepReach exCatalog exLibL.depends k ∧
          jsGet exCatalog k = none)) :=
  C1_dependency_closure.1 exCatalog exLibL
    (AddLibraryHandler.acyclic_of_rank _ exRank (by decide)) (by decide)

/-- C5.  `resolveLibraryDependencies` terminates on every acyclic catalog
(for some fuel); on the two-entry cyclic catalog it has no cycle guard, so
the recursion never completes: the fuel embedding returns `none` for every
fuel. -/
theorem C5_resolver_termination :
    (∀ (m : LibrarySourceMap) (lib : SourcedLibraryMetadata),
        AddLibraryHandler.Acyclic m →
        ∃ fuel r,
          AddLibraryHandler.resolveLibraryDependencies lib m fuel = some r) ∧
    (∀ fuel,
      AddLibraryHandler.resolveLibraryDependencies cycLibA cycCatalog fuel =
        none) := by
  constructor
  · intro m lib hacy
    exact AddLibraryHandler.resolveLibraryDependencies_total m hacy lib
  · intro fuel
    unfold AddLibraryHandler.resolveLibraryDependencies
    rw [show cycLibA.depends = ["B"] from rfl,
      (AddLibraryHandler.cycCatalog_go_none fuel).2 ([], [])]
    rfl

/-- Witness for C5: the acyclic branch applied at the concrete catalog. -/
theorem C5_resolver_termination_witness :
    ∃ fuel r,
      AddLibraryHandler.resolveLibraryDependencies exLibL exCatalog fuel =
        some r :=
  C5_resolver_termination.1 exCatalog exLibL
    (AddLibraryHandler.acyclic_of_rank _ exRank (by decide))

/-! ## Theorems: name-collision resolution -/

namespace AddLibraryHandler

theorem pickFirst_untouched (t : LibrarySourceMapDuplicates)
    (acc : LibrarySourceMap) (name : String) (h : name ∉ t.map Prod.fst) :
    jsGet (t.foldl
      (fun libSourceMap p =>
        match p.2 with
        | [] => libSourceMap
        | libInfo :: _ => jsSet libSourceMap p.1 libInfo) acc) name =
      jsGet acc name := by
  induction t generalizing acc with
  | nil => rfl
  | cons p t ih =>
    simp only [List.map_cons, List.mem_cons, not_or] at h
    simp only [List.foldl_cons]
    rw [ih _ h.2]
    rcases p with ⟨pn, pc⟩
    cases pc with
    | nil => rfl
    | cons x xs =>
      simp only []
      rw [jsGet_jsSet]
      rw [if_neg h.1]

theorem pickFirst_hit (m : LibrarySourceMapDuplicates) :
    ∀ (acc : LibrarySourceMap) (name : String)
      (first : SourcedLibraryMetadata) (rest : List SourcedLibraryMetadata),
      (m.map Prod.fst).Nodup → (name, first :: rest) ∈ m →
      jsGet (m.foldl
        (fun libSourceMap p =>
          match p.2 with
          | [] => libSourceMap
          | libInfo :: _ => jsSet libSourceMap p.1 libInfo) acc) name =
        some first := by
  induction m with
  | nil =>
    intro acc name first rest _ hmem
    exact absurd hmem (List.not_mem_nil _)
  | cons p t ih =>
    intro acc name first rest hnd hmem
    simp only [List.map_cons, List.nodup_cons] at hnd
    simp only [List.foldl_cons]
    rcases List.mem_cons.mp hmem with h | h
    · subst h
      simp only []
      rw [pickFirst_untouched t _ name hnd.1]
      rw [jsGet_jsSet, if_pos rfl]
    · have hkey : name ∈ t.map Prod.fst :=
        List.mem_map.mpr ⟨(name, first :: rest), h, rfl⟩
      exact ih _ name first rest hnd.2 h

theorem findDup_sound (m : LibrarySourceMapDuplicates) :
    ∀ (dup : List (LibrarySource × List SourcedLibraryMetadata))
      (s : LibrarySource) (libs : List SourcedLibraryMetadata)
      (lib : SourcedLibraryMetadata),
      jsGet (m.foldl
        (fun duplicateMap p =>
          match p.2 with
          | [] => duplicateMap
          | [_] => duplicateMap
          | firstLib :: _ :: _ =>
            jsSet duplicateMap firstLib.source
              ((jsGet duplicateMap firstLib.source).getD [] ++ [firstLib]))
        dup) s = some libs →
      lib ∈ libs →
      (∃ libs₀, jsGet dup s = some libs₀ ∧ lib ∈ libs₀) ∨
        (lib.source = s ∧ ∃ name c2 rest, (name, lib :: c2 :: rest) ∈ m) := by
  induction m with
  | nil =>
    intro dup s libs lib hget hmem
    exact Or.inl ⟨libs, hget, hmem⟩
  | cons p t ih =>
    intro dup s libs lib hget hmem
    simp only [List.foldl_cons] at hget
    rcases p with ⟨pn, pc⟩
    have hstep := ih _ s libs lib hget hmem
    rcases hstep with ⟨libs₀, hget₀, hmem₀⟩ | ⟨hsrc, name, c2, rest, hmem'⟩
    · cases pc with
      | nil => exact Or.inl ⟨libs₀, hget₀, hmem₀⟩
      | cons x xs =>
        cases xs with
        | nil => exact Or.inl ⟨libs₀, hget₀, hmem₀⟩
        | cons y ys =>
          simp only [] at hget₀
          rw [jsGet_jsSet] at hget₀
          by_cases hs : s = x.source
          · subst hs
            rw [if_pos rfl] at hget₀
            injection hget₀ with hlibs
            subst hlibs
            rcases List.mem_append.mp hmem₀ with h' | h'
            · cases hx : jsGet dup x.source with
              | none =>
                rw [hx] at h'
                exact absurd h' (List.not_mem_nil _)
              | some o =>
                rw [hx] at h'
                exact Or.inl ⟨o, rfl, h'⟩
            · rcases List.mem_singleton.mp h' with rfl
              exact Or.inr ⟨rfl, pn, y, ys, List.mem_cons_self _ _⟩
          · rw [if_neg hs] at hget₀
            exact Or.inl ⟨libs₀, hget₀, hmem₀⟩
    · exact Or.inr ⟨hsrc, name, c2, rest, List.mem_cons_of_mem _ hmem'⟩

theorem findDup_mono (t : LibrarySourceMapDuplicates) :
    ∀ (dup : List (LibrarySource × List SourcedLibraryMetadata))
      (s : LibrarySource) (libs : List SourcedLibraryMetadata)
      (lib : SourcedLibraryMetadata),
      jsGet dup s = some libs → lib ∈ libs →
      ∃ libs', jsGet (t.foldl
        (fun duplicateMap p =>
          match p.2 with
          | [] => duplicateMap
          | [_] => duplicateMap
          | firstLib :: _ :: _ =>
            jsSet duplicateMap firstLib.source
              ((jsGet duplicateMap firstLib.source).getD [] ++ [firstLib]))
        dup) s = some libs' ∧ lib ∈ libs' := by
  induction t with
  | nil =>
    intro dup s libs lib hget hmem
    exact ⟨libs, hget, hmem⟩
  | cons p t ih =>
    intro dup s libs lib hget hmem
    simp only [List.foldl_cons]
    rcases p with ⟨pn, pc⟩
    cases pc with
    | nil => exact ih _ s libs lib hget hmem
    | cons x xs =>
      cases xs with
      | nil => exact ih _ s libs lib hget hmem
      | cons y ys =>
        simp only []
        by_cases hs : s = x.source
        · subst hs
          refine ih _ x.source ((jsGet dup x.source).getD [] ++ [x]) lib ?_ ?_
          · rw [jsGet_jsSet, if_pos rfl]
          · rw [hget]
            exact List.mem_append.mpr (Or.inl hmem)
        · refine ih _ s libs lib ?_ hmem
          rw [jsGet_jsSet, if_neg hs]
          exact hget

theorem findDup_complete (m : LibrarySourceMapDuplicates) :
    ∀ (dup : List (LibrarySource × List SourcedLibraryMetadata))
      (name : String) (first c2 : SourcedLibraryMetadata)
      (rest : List SourcedLibraryMetadata),
      (name, first :: c2 :: rest) ∈ m →
      ∃ libs, jsGet (m.foldl
        (fun duplicateMap p =>
          match p.2 with
          | [] => duplicateMap
          | [_] => duplicateMap
          | firstLib :: _ :: _ =>
            jsSet duplicateMap firstLib.source
              ((jsGet duplicateMap firstLib.source).getD [] ++ [firstLib]))
        dup) first.source = some libs ∧ first ∈ libs := by
  induction m with
  | nil =>
    intro dup name first c2 rest hmem
    exact absurd hmem (List.not_mem_nil _)
  | cons p t ih =>
    intro dup name first c2 rest hmem
    simp only [List.foldl_cons]
    rcases List.mem_cons.mp hmem with h | h
    · subst h
      simp only []
      exact findDup_mono t _ first.source
        ((jsGet dup first.source).getD [] ++ [first]) first
        (by rw [jsGet_jsSet, if_pos rfl])
        (List.mem_append.mpr (Or.inr (List.mem_singleton.mpr rfl)))
    · exact ih _ name first c2 rest h

end AddLibraryHandler

/-- C2 (amended).  For every name with more than one candidate the first
candidate in discovery order is the winner placed in the final catalog; the
duplicates map records, for each such name, the *winning* candidate keyed by
the *winner's own* source (the basis of the message "libraries X are in
multiple jars; using libraries from `<winning jar>`"); losing candidates are
not recorded. -/
theorem C2_collision_resolution :
    (∀ (m : LibrarySourceMapDuplicates) (name : String)
        (first : SourcedLibraryMetadata) (rest : List SourcedLibraryMetadata),
        (m.map Prod.fst).Nodup → (name, first :: rest) ∈ m →
        jsGet (AddLibraryHandler.pickFirstLibraries m) name = some first) ∧
    (∀ (m : LibrarySourceMapDuplicates) (s : LibrarySource)
        (libs : List SourcedLibraryMetadata) (lib : SourcedLibraryMetadata),
        jsGet (AddLibraryHandler.findDuplicateLibraries m) s = some libs →
        lib ∈ libs →
        lib.source = s ∧ ∃ name c2 rest, (name, lib :: c2 :: rest) ∈ m) ∧
    (∀ (m : LibrarySourceMapDuplicates) (name : String)
        (first c2 : SourcedLibraryMetadata)
        (rest : List SourcedLibraryMetadata),
        (name, first :: c2 :: rest) ∈ m →
        ∃ libs,
          jsGet (AddLibraryHandler.findDuplicateLibraries m) first.source =
            some libs ∧ first ∈ libs) := by
  refine ⟨?_, ?_, ?_⟩
  · intro m name first rest hnd hmem
    exact AddLibraryHandler.pickFirst_hit m [] name first rest hnd hmem
  · intro m s libs lib hget hmem
    rcases AddLibraryHandler.findDup_sound m [] s libs lib hget hmem with
      ⟨libs₀, hget₀, _⟩ | h
    · simp at hget₀
    · exact h
  · intro m name first c2 rest hmem
    exact AddLibraryHandler.findDup_complete m [] name first c2 rest hmem

/-- Witness for C2 at the concrete two-candidate collision. -/
theorem C2_collision_resolution_witness :
    jsGet (AddLibraryHandler.pickFirstLibraries dupCandidates) "X" =
      some dupLib1 ∧
    (∃ libs,
      jsGet (AddLibraryHandler.findDuplicateLibraries dupCandidates)
        dupLib1.source = some libs ∧ dupLib1 ∈ libs) :=
  ⟨C2_collision_resolution.1 dupCandidates "X" dupLib1 [dupLib2]
      (by decide) (by decide),
    C2_collision_resolution.2.2 dupCandidates "X" dupLib1 dupLib2 []
      (by decide)⟩

/-- Counterexample for C2 as stated: with name `X` claimed by `dupLib1`
(source `/u/one.jar`, discovered first) and `dupLib2` (source `/u/two.jar`),
the duplicates map contains only the winner `dupLib1` under the winner's
source, and nothing at all under the losing candidate's source `dupSrc2`;
the claim predicts `dupLib2` recorded under `dupSrc2`. -/
theorem C2_collision_resolution_counterexample :
    AddLibraryHandler.findDuplicateLibraries dupCandidates =
      [(dupSrc1, [dupLib1])] ∧
    jsGet (AddLibraryHandler.findDuplicateLibraries dupCandidates) dupSrc2 =
      none ∧
    dupSrc1 ≠ dupSrc2 := by
  refine ⟨by decide, by decide, by decide⟩

/-! ## Theorems: enablement replace semantics -/

section JsMapNodup

variable {κ : Type u} {α : Type v} [DecidableEq κ]

theorem lastVal_cons (p : κ × α) (t : List (κ × α)) (k : κ) :
    lastVal (p :: t) k =
      match lastVal t k with
      | some v => some v
      | none => if p.1 = k then some p.2 else none := rfl

theorem lastVal_eq_none_iff {l : List (κ × α)} {k : κ} :
    lastVal l k = none ↔ jsGet l k = none := by
  rw [← Option.not_isSome_iff_eq_none, ← Option.not_isSome_iff_eq_none]
  rw [lastVal_isSome_iff, jsGet_isSome_iff]

theorem lastVal_of_nodup {l : List (κ × α)} (hnd : (l.map Prod.fst).Nodup)
    (k : κ) : lastVal l k = jsGet l k := by
  induction l with
  | nil => rfl
  | cons p t ih =>
    simp only [List.map_cons, List.nodup_cons] at hnd
    rw [jsGet_cons, lastVal_cons]
    by_cases hp : p.1 = k
    · subst hp
      have ht : lastVal t p.1 = none := by
        rw [lastVal_eq_none_iff, jsGet_eq_none_iff]
        intro v hv
        exact hnd.1 (List.mem_map.mpr ⟨(p.1, v), hv, rfl⟩)
      rw [ht]
      simp
    · rw [ih hnd.2, if_neg hp, if_neg hp]
      cases jsGet t k <;> rfl

end JsMapNodup

namespace ManagePluginsHandler

/-- The disable-all pass: every key of `currentState` ends up mapped to its
old entry with `enabled := false`; other keys keep whatever the starting map
said. -/
theorem disableAll_get (l : List (String × PluginMetadataState))
    (acc : List (String × PluginMetadataState)) (n : String) :
    jsGet (l.foldl (fun ns p => jsSet ns p.1 (p.2.setEnabled false)) acc) n =
      match lastVal l n with
      | some v => some (v.setEnabled false)
      | none => jsGet acc n := by
  induction l generalizing acc with
  | nil => simp
  | cons p t ih =>
    simp only [List.foldl_cons]
    rw [ih, lastVal_cons]
    cases h : lastVal t n with
    | some v => simp
    | none =>
      simp only []
      rw [jsGet_jsSet]
      by_cases hp : n = p.1
      · rw [if_pos hp, if_pos hp.symm]
      · rw [if_neg hp, if_neg (fun h' => hp h'.symm)]

/-- The enable-selected pass: a selected, present key gets `enabled := true`;
everything else is untouched. -/
theorem enableSel_get (sel : List String)
    (ns : List (String × PluginMetadataState)) (n : String) :
    jsGet (sel.foldl
      (fun ns n =>
        match jsGet ns n with
        | none => ns
        | some st => jsSet ns n (st.setEnabled true)) ns) n =
      if n ∈ sel ∧ (jsGet ns n).isSome then
        (jsGet ns n).map (fun st => st.setEnabled true)
      else jsGet ns n := by
  induction sel generalizing ns with
  | nil => simp
  | cons m sel ih =>
    simp only [List.foldl_cons]
    rw [ih]
    by_cases hnm : n = m
    · subst hnm
      cases hm : jsGet ns n with
      | none =>
        rw [show (match (none : Option PluginMetadataState) with
            | none => ns
            | some st => jsSet ns n (st.setEnabled true)) = ns from rfl]
        rw [hm]
        simp
      | some st =>
        rw [show (match (some st : Option PluginMetadataState) with
            | none => ns
            | some st => jsSet ns n (st.setEnabled true)) =
          jsSet ns n (st.setEnabled true) from rfl]
        have hset : jsGet (jsSet ns n (st.setEnabled true)) n =
            some (st.setEnabled true) := by
          rw [jsGet_jsSet, if_pos rfl]
        rw [hset]
        rw [if_pos (⟨List.mem_cons_self _ _, rfl⟩ :
          n ∈ n :: sel ∧ (some st : Option PluginMetadataState).isSome = true)]
        by_cases hsel : n ∈ sel
        · rw [if_pos ⟨hsel, rfl⟩]
          rfl
        · rw [if_neg (by rintro ⟨h, _⟩; exact hsel h)]
          rfl
    · have hsame : jsGet
          (match jsGet ns m with
            | none => ns
            | some st => jsSet ns m (st.setEnabled true)) n = jsGet ns n := by
        cases hm : jsGet ns m with
        | none => rfl
        | some st =>
          simp only []
          rw [jsGet_jsSet, if_neg hnm]
      rw [hsame]
      have hiff : (n ∈ sel ∧ (jsGet ns n).isSome = true) ↔
          (n ∈ m :: sel ∧ (jsGet ns n).isSome = true) := by
        constructor
        · rintro ⟨h1, h2⟩
          exact ⟨List.mem_cons_of_mem _ h1, h2⟩
        · rintro ⟨h1, h2⟩
          rcases List.mem_cons.mp h1 with h | h
          · exact absurd h hnm
          · exact ⟨h, h2⟩
      exact if_congr hiff rfl rfl

end ManagePluginsHandler

/-- C7.  Applying a user selection is a full replace: in the resulting state
a name's `enabled` flag is true exactly when the name is in the selection,
independent of its previous flag; names absent from the state stay absent;
and from `{P1: enabled, P2: disabled}`, applying the selection `[P2]` yields
exactly `{P1: disabled, P2: enabled}` with no residual `true` on `P1`. -/
theorem C7_enablement_full_replace :
    (∀ (current : List (String × PluginMetadataState))
        (selected : List String) (n : String) (st₀ : PluginMetadataState),
        (current.map Prod.fst).Nodup →
        jsGet current n = some st₀ →
        jsGet (ManagePluginsHandler.applyUserSelection current selected) n =
          some (st₀.setEnabled (decide (n ∈ selected)))) ∧
    (∀ (current : List (String × PluginMetadataState))
        (selected : List String) (n : String),
        jsGet current n = none →
        jsGet (ManagePluginsHandler.applyUserSelection current selected) n =
          none) ∧
    ManagePluginsHandler.applyUserSelection exPluginState ["P2"] =
      [("P1", p1State.setEnabled false), ("P2", p2State.setEnabled true)] := by
  refine ⟨?_, ?_, by decide⟩
  · intro current selected n st₀ hnd hn
    unfold ManagePluginsHandler.applyUserSelection
    rw [ManagePluginsHandler.enableSel_get, ManagePluginsHandler.disableAll_get,
      lastVal_of_nodup hnd, hn]
    show (if n ∈ selected ∧
        (some (st₀.setEnabled false) : Option PluginMetadataState).isSome = true
      then Option.map (fun st => st.setEnabled true) (some (st₀.setEnabled false))
      else some (st₀.setEnabled false)) = _
    by_cases hsel : n ∈ selected
    · rw [if_pos ⟨hsel, rfl⟩, decide_eq_true hsel]
      rfl
    · rw [if_neg (by rintro ⟨h, _⟩; exact hsel h), decide_eq_false hsel]
  · intro current selected n hn
    unfold ManagePluginsHandler.applyUserSelection
    rw [ManagePluginsHandler.enableSel_get, ManagePluginsHandler.disableAll_get]
    have hlast : lastVal current n = none := lastVal_eq_none_iff.mpr hn
    rw [hlast, hn]
    simp

/-- Witness for C7 at the concrete `{P1: enabled, P2: disabled}` state. -/
theorem C7_enablement_full_replace_witness :
    jsGet (ManagePluginsHandler.applyUserSelection exPluginState ["P2"]) "P1" =
      some (p1State.setEnabled false) ∧
    jsGet (ManagePluginsHandler.applyUserSelection exPluginState ["P2"]) "P2" =
      some (p2State.setEnabled true) :=
  ⟨by
    have h := C7_enablement_full_replace.1 exPluginState ["P2"] "P1" p1State
      (by decide) (by decide)
    simpa using h,
  by
    have h := C7_enablement_full_replace.1 exPluginState ["P2"] "P2" p2State
      (by decide) (by decide)
    simpa using h⟩

/-! ## Theorems: the archive reader -/

namespace JarFile

/-- Scanning for a path that occurs nowhere in the remaining entry stream
finds nothing. -/
theorem consume_not_found (path : String) :
    ∀ (l : List ZipEntry) (cache : List (String × ZipEntry)),
      path ∉ l.map ZipEntry.fileName →
      (consumeEntriesUntilMatch path l cache).2.2 = none := by
  intro l
  induction l with
  | nil =>
    intro cache _
    rfl
  | cons e rest ih =>
    intro cache h
    simp only [List.map_cons, List.mem_cons, not_or] at h
    unfold consumeEntriesUntilMatch
    dsimp only
    rw [if_neg (fun h' => h.1 h'.symm)]
    exact ih _ h.2

end JarFile

/-- C10.  After `close()` every `readFile` raises the already-closed error
(and leaves the state unchanged and closed, so every later call raises too);
`close()` is a total state update that cannot fail; and on an open handle
whose cache is consistent with the entry stream, `readFile` of a path absent
from the archive returns `ok none` (the caller's `undefined`) rather than
raising. -/
theorem C10_jarfile_closed_reads :
    (∀ (s : JarFileState) (path : String),
        s.isOpen = false →
        JarFile.readFile s path =
          (Except.error
            "The JAR has already been closed, it is not possible to read from it.",
            s)) ∧
    (∀ s : JarFileState, (JarFile.close s).isOpen = false) ∧
    (∀ (s : JarFileState) (path : String),
        ((JarFile.readFile s path).2).isOpen = s.isOpen) ∧
    (∀ (s : JarFileState) (path : String),
        s.isOpen = true →
        (∀ q ∈ s.entryCache, q.1 = q.2.fileName ∧ q.2 ∈ s.entries) →
        path ∉ s.entries.map ZipEntry.fileName →
        (JarFile.readFile s path).1 = Except.ok none) := by
  refine ⟨?_, ?_, ?_, ?_⟩
  · intro s path h
    simp [JarFile.readFile, h]
  · intro s
    rfl
  · intro s path
    unfold JarFile.readFile
    by_cases h : s.isOpen = true
    · rw [if_pos h]
      cases jsGet s.entryCache path with
      | some e => rfl
      | none =>
        dsimp only
        cases (JarFile.consumeEntriesUntilMatch path
          (s.entries.drop s.cursor) s.entryCache).2.2 with
        | some e => rfl
        | none => rfl
    · rw [if_neg h]
  · intro s path hopen hcache hpath
    unfold JarFile.readFile
    rw [if_pos hopen]
    have hc : jsGet s.entryCache path = none := by
      rw [jsGet_eq_none_iff]
      intro e he
      obtain ⟨h1, h2⟩ := hcache (path, e) he
      exact hpath (List.mem_map.mpr ⟨e, h2, h1.symm⟩)
    rw [hc]
    have hscan : (JarFile.consumeEntriesUntilMatch path
        (s.entries.drop s.cursor) s.entryCache).2.2 = none := by
      apply JarFile.consume_not_found
      intro hmem
      exact hpath (List.map_subset _ (List.drop_subset _ _) hmem)
    dsimp only
    rw [hscan]

/-- Witness for C10 on the concrete two-entry jar handle. -/
theorem C10_jarfile_closed_reads_witness :
    JarFile.readFile (JarFile.close exJar) "META-INF/plugin.json" =
      (Except.error
        "The JAR has already been closed, it is not possible to read from it.",
        JarFile.close exJar) ∧
    (JarFile.readFile exJar "META-INF/library.json").1 = Except.ok none :=
  ⟨C10_jarfile_closed_reads.1 (JarFile.close exJar) "META-INF/plugin.json" rfl,
    C10_jarfile_closed_reads.2.2.2 exJar "META-INF/library.json" rfl
      (by decide) (by decide)⟩

/-! ## Theorems: the session jar cache -/

/-- C9.  Once `jarCache` is populated, `resolveJarPathsFromSettings` returns
exactly the cached list regardless of its arguments (and reports no failed
paths); every call leaves the cache holding exactly the list it returned;
consequently the workspace/user-scope resolution inside
`getUserExtensionSources` always returns the folder-scope stage's list, so
every source in the result comes from the folder-scope resolution — a
workspace/user-scope path whose basename is absent from the folder-scope
result is never appended. -/
theorem C9_jarcache_freezes_user_sources :
    (∀ (env : VDMJExtensionsHandler.VDMJEnv) (cached jarPaths : List String)
        (rootUri : Option String),
        VDMJExtensionsHandler.resolveJarPathsFromSettings env (some cached)
          jarPaths rootUri = (cached, [], some cached)) ∧
    (∀ (env : VDMJExtensionsHandler.VDMJEnv) (cache : Option (List String))
        (jarPaths : List String) (rootUri : Option String),
        (VDMJExtensionsHandler.resolveJarPathsFromSettings env cache jarPaths
          rootUri).2.2 =
          some (VDMJExtensionsHandler.resolveJarPathsFromSettings env cache
            jarPaths rootUri).1) ∧
    (∀ (env : VDMJExtensionsHandler.VDMJEnv) (cache : Option (List String))
        (s : ExtensionSource),
        s ∈ (VDMJExtensionsHandler.getUserExtensionSources env cache).1 →
        s.jarPath ∈ (VDMJExtensionsHandler.resolveJarPathsFromSettings env
          cache env.folderSettings (some env.wsRoot)).1) := by
  refine ⟨fun env cached jarPaths rootUri => rfl, ?_, ?_⟩
  · intro env cache jarPaths rootUri
    cases cache <;> rfl
  · intro env cache s hs
    unfold VDMJExtensionsHandler.getUserExtensionSources at hs
    dsimp only at hs
    by_cases heq : settingsEqualJS env.folderSettings
        env.userOrWorkspaceSettings = true
    · rw [if_pos heq] at hs
      dsimp only at hs
      rcases List.mem_map.mp hs with ⟨p, hp, rfl⟩
      exact hp
    · rw [if_neg heq] at hs
      dsimp only at hs
      rcases List.mem_map.mp hs with ⟨p, hp, rfl⟩
      show p ∈ _
      have hfill : (VDMJExtensionsHandler.resolveJarPathsFromSettings env cache
          env.folderSettings (some env.wsRoot)).2.2 =
          some (VDMJExtensionsHandler.resolveJarPathsFromSettings env cache
            env.folderSettings (some env.wsRoot)).1 := by
        cases cache <;> rfl
      rw [hfill] at hp
      rcases List.mem_append.mp hp with h' | h'
      · exact h'
      · have h'' := List.mem_of_mem_filter h'
        exact h''

/-- Witness for C9 at a concrete environment with a nonempty folder-scope
resolution. -/
theorem C9_jarcache_freezes_user_sources_witness :
    (⟨"user", "/w/u.jar"⟩ : ExtensionSource).jarPath ∈
      (VDMJExtensionsHandler.resolveJarPathsFromSettings envC3 none
        envC3.folderSettings (some envC3.wsRoot)).1 :=
  C9_jarcache_freezes_user_sources.2.2 envC3 none ⟨"user", "/w/u.jar"⟩
    (by decide)

/-! ## Theorems: malformed metadata handling -/

namespace ManagePluginsHandler

/-- Full characterisation of the plugin discovery loop when every jar opens:
it never faults, the duplicates map is built from exactly the sources whose
metadata entry is present (filtered by dialect and precision, in order), and
the warning list extends with exactly the jar paths of the sources whose
metadata entry is absent. -/
theorem collectPluginInfoDup_spec (env : PluginJarEnv)
    (dialect precision : String) :
    ∀ (sources : List ExtensionSource)
      (acc : List (String × List SourcedPluginMetadata) × List String),
      (∀ s ∈ sources, env.jarOpens s.jarPath = true) →
      collectPluginInfoDup env dialect precision sources acc =
        Except.ok
          ((sources.filterMap (fun s =>
            match env.pluginJson s.jarPath with
            | none => none
            | some raw =>
              if dialect ∈ raw.dialects ∧
                  raw.precision.getD "standard" = precision then
                some (⟨raw.name, raw.description, raw.dialects,
                  raw.precision.getD "standard", s⟩ : SourcedPluginMetadata)
              else none)).foldl
            (fun a info =>
              jsSet a info.name ((jsGet a info.name).getD [] ++ [info]))
            acc.1,
          acc.2 ++ (sources.filter
            (fun s => env.pluginJson s.jarPath = none)).map
              (fun s => s.jarPath)) := by
  intro sources
  induction sources with
  | nil =>
    intro acc _
    simp [collectPluginInfoDup]
  | cons s rest ih =>
    intro acc hopen
    have hs := hopen s (List.mem_cons_self _ _)
    have hrest : ∀ s' ∈ rest, env.jarOpens s'.jarPath = true :=
      fun s' hs' => hopen s' (List.mem_cons_of_mem _ hs')
    unfold collectPluginInfoDup getPluginInfoFromSource
    rw [if_pos hs]
    cases hj : env.pluginJson s.jarPath with
    | none =>
      simp only [List.filterMap_cons, List.filter_cons, hj]
      rw [ih (acc.1, acc.2 ++ [s.jarPath]) hrest]
      simp
    | some raw =>
      simp only [List.filterMap_cons, List.filter_cons, hj]
      by_cases hmatch : dialect ∈ raw.dialects ∧
          raw.precision.getD "standard" = precision
      · rw [if_pos hmatch]
        rw [ih (jsSet acc.1 raw.name
          ((jsGet acc.1 raw.name).getD [] ++
            [(⟨raw.name, raw.description, raw.dialects,
              raw.precision.getD "standard", s⟩ : SourcedPluginMetadata)]),
          acc.2) hrest]
        simp only [if_pos hmatch]
        simp
      · rw [if_neg hmatch]
        rw [ih acc hrest]
        simp only [if_neg hmatch]
        simp
end ManagePluginsHandler

/-- C6 (amended).  For plugin (and annotation) sources whose metadata entry
is absent, the loader returns `undefined` (`ok none`) rather than raising,
the archive is skipped with a warning naming its jar path, and the discovery
pass continues, returning the metadata of the remaining archives.  For
*library* sources, however, a missing `META-INF/library.json` makes
`getLibInfoFromSource` raise (the unchecked `.toString()` on an undefined
buffer), and the error aborts the entire library discovery pass. -/
theorem C6_malformed_metadata_skip :
    (∀ (env : ManagePluginsHandler.PluginJarEnv) (source : ExtensionSource),
        env.jarOpens source.jarPath = true →
        env.pluginJson source.jarPath = none →
        ManagePluginsHandler.getPluginInfoFromSource env source =
          Except.ok none) ∧
    (∀ (env : ManagePluginsHandler.PluginJarEnv) (dialect precision : String)
        (sources : List ExtensionSource),
        (∀ s ∈ sources, env.jarOpens s.jarPath = true) →
        ManagePluginsHandler.getAllPluginInfo env dialect precision sources =
          Except.ok
            (ManagePluginsHandler.pickFirstPlugins
              ((sources.filterMap (fun s =>
                match env.pluginJson s.jarPath with
                | none => none
                | some raw =>
                  if dialect ∈ raw.dialects ∧
                      raw.precision.getD "standard" = precision then
                    some (⟨raw.name, raw.description, raw.dialects,
                      raw.precision.getD "standard", s⟩ : SourcedPluginMetadata)
                  else none)).foldl
                (fun a info =>
                  jsSet a info.name ((jsGet a info.name).getD [] ++ [info]))
                []),
            (sources.filter
              (fun s => env.pluginJson s.jarPath = none)).map
                (fun s => s.jarPath))) ∧
    (∀ (env : AddLibraryHandler.LibJarEnv) (source : LibrarySource)
        (dialect : String),
        env.jarOpens source.jarPath = true →
        env.libraryJson source.jarPath = none →
        AddLibraryHandler.getLibInfoFromSource env source dialect =
          Except.error source.jarPath) ∧
    AddLibraryHandler.getAllLibInfo envLibC6 "vdmsl" [badLibSrc, goodLibSrc] =
      Except.error "/u/bad.jar" := by
  refine ⟨?_, ?_, ?_, by rfl⟩
  · intro env source hopen hj
    unfold ManagePluginsHandler.getPluginInfoFromSource
    rw [if_pos hopen, hj]
  · intro env dialect precision sources hopen
    unfold ManagePluginsHandler.getAllPluginInfo
    rw [ManagePluginsHandler.collectPluginInfoDup_spec env dialect precision
      sources ([], []) hopen]
    rfl
  · intro env source dialect hopen hj
    unfold AddLibraryHandler.getLibInfoFromSource
    rw [if_pos hopen, hj]

/-- Witness for C6 at the concrete environments: the malformed plugin jar is
skipped with a warning naming its path while the well-formed one is
returned. -/
theorem C6_malformed_metadata_skip_witness :
    ManagePluginsHandler.getPluginInfoFromSource envPlugC6 badPlugSrc =
      Except.ok none ∧
    ManagePluginsHandler.getAllPluginInfo envPlugC6 "vdmsl" "standard"
      [badPlugSrc, goodPlugSrc] =
      Except.ok
        ([("quickcheck",
          (⟨"quickcheck", "qc plugin", ["vdmsl"], "standard", goodPlugSrc⟩ :
            SourcedPluginMetadata))], ["/u/badp.jar"]) := by
  constructor
  · exact C6_malformed_metadata_skip.1 envPlugC6 badPlugSrc (by decide)
      (by decide)
  · have h := C6_malformed_metadata_skip.2.1 envPlugC6 "vdmsl" "standard"
      [badPlugSrc, goodPlugSrc] (by intro s _; rfl)
    rw [h]
    rfl

/-- Counterexample for C6 as stated: for a *library* archive whose
`META-INF/library.json` is absent, the metadata load raises instead of
returning `undefined`, and the overall discovery pass over
`[badLibSrc, goodLibSrc]` aborts with that error instead of returning the
metadata of the remaining well-formed archive (which alone would yield the
`MATH` library). -/
theorem C6_malformed_metadata_skip_counterexample :
    AddLibraryHandler.getLibInfoFromSource envLibC6 badLibSrc "vdmsl" =
      Except.error "/u/bad.jar" ∧
    AddLibraryHandler.getAllLibInfo envLibC6 "vdmsl" [badLibSrc, goodLibSrc] =
      Except.error "/u/bad.jar" ∧
    AddLibraryHandler.getAllLibInfo envLibC6 "vdmsl" [goodLibSrc] =
      Except.ok [("MATH",
        (⟨"MATH", "maths library", [], ["MATH.vdmsl"], goodLibSrc⟩ :
          SourcedLibraryMetadata))] := by
  refine ⟨by rfl, by rfl, by rfl⟩

/-! ## Theorems: the import map -/

namespace AddLibraryHandler

theorem buildImportMap_nil (m : LibrarySourceMap) (fuel : Nat)
    (acc : List (LibrarySource × List SourcedLibraryMetadata) ×
      List (String × List String)) :
    buildImportMap m fuel [] acc = some acc := rfl

theorem buildImportMap_cons {m : LibrarySourceMap} {fuel : Nat}
    {lib : SourcedLibraryMetadata} {res : DependencyResolutionResult}
    (rest : List SourcedLibraryMetadata)
    (acc : List (LibrarySource × List SourcedLibraryMetadata) ×
      List (String × List String))
    (h : resolveLibraryDependencies lib m fuel = some res) :
    buildImportMap m fuel (lib :: rest) acc =
      buildImportMap m fuel rest
        (addLibsToImportMap acc.1 (lib :: res.resolved.map Prod.snd),
          if res.unresolved = [] then acc.2
          else acc.2 ++ [(lib.name, res.unresolved)]) := by
  have h1 : buildImportMap m fuel (lib :: rest) acc =
      match resolveLibraryDependencies lib m fuel with
      | none => none
      | some res =>
        buildImportMap m fuel rest
          (addLibsToImportMap acc.1 (lib :: res.resolved.map Prod.snd),
            if res.unresolved = [] then acc.2
            else acc.2 ++ [(lib.name, res.unresolved)]) := rfl
  rw [h1, h]

theorem buildImportMap_cons_none {m : LibrarySourceMap} {fuel : Nat}
    {lib : SourcedLibraryMetadata}
    (rest : List SourcedLibraryMetadata)
    (acc : List (LibrarySource × List SourcedLibraryMetadata) ×
      List (String × List String))
    (h : resolveLibraryDependencies lib m fuel = none) :
    buildImportMap m fuel (lib :: rest) acc = none := by
  have h1 : buildImportMap m fuel (lib :: rest) acc =
      match resolveLibraryDependencies lib m fuel with
      | none => none
      | some res =>
        buildImportMap m fuel rest
          (addLibsToImportMap acc.1 (lib :: res.resolved.map Prod.snd),
            if res.unresolved = [] then acc.2
            else acc.2 ++ [(lib.name, res.unresolved)]) := rfl
  rw [h1, h]

theorem addLibs_mono (l : List SourcedLibraryMetadata) :
    ∀ (im : List (LibrarySource × List SourcedLibraryMetadata))
      (s : LibrarySource) (libs : List SourcedLibraryMetadata)
      (lib : SourcedLibraryMetadata),
      jsGet im s = some libs → lib ∈ libs →
      ∃ libs', jsGet (addLibsToImportMap im l) s = some libs' ∧ lib ∈ libs' := by
  induction l with
  | nil =>
    intro im s libs lib hget hmem
    exact ⟨libs, hget, hmem⟩
  | cons x t ih =>
    intro im s libs lib hget hmem
    unfold addLibsToImportMap
    simp only [List.foldl_cons]
    by_cases hs : s = x.source
    · subst hs
      refine ih _ x.source ((jsGet im x.source).getD [] ++ [x]) lib ?_ ?_
      · rw [jsGet_jsSet, if_pos rfl]
      · rw [hget]
        exact List.mem_append.mpr (Or.inl hmem)
    · refine ih _ s libs lib ?_ hmem
      rw [jsGet_jsSet, if_neg hs]
      exact hget

theorem addLibs_head (l : List SourcedLibraryMetadata) :
    ∀ (im : List (LibrarySource × List SourcedLibraryMetadata))
      (lib : SourcedLibraryMetadata),
      lib ∈ l →
      ∃ libs, jsGet (addLibsToImportMap im l) lib.source = some libs ∧
        lib ∈ libs := by
  induction l with
  | nil =>
    intro im lib hmem
    exact absurd hmem (List.not_mem_nil _)
  | cons x t ih =>
    intro im lib hmem
    rcases List.mem_cons.mp hmem with h | h
    · subst h
      unfold addLibsToImportMap
      simp only [List.foldl_cons]
      exact addLibs_mono t _ lib.source
        ((jsGet im lib.source).getD [] ++ [lib]) lib
        (by rw [jsGet_jsSet, if_pos rfl])
        (List.mem_append.mpr (Or.inr (List.mem_singleton.mpr rfl)))
    · unfold addLibsToImportMap
      simp only [List.foldl_cons]
      exact ih _ lib h

theorem buildImportMap_mono (m : LibrarySourceMap) (fuel : Nat) :
    ∀ (sel : List SourcedLibraryMetadata)
      (acc out : List (LibrarySource × List SourcedLibraryMetadata) ×
        List (String × List String)),
      buildImportMap m fuel sel acc = some out →
      (∀ s libs lib, jsGet acc.1 s = some libs → lib ∈ libs →
        ∃ libs', jsGet out.1 s = some libs' ∧ lib ∈ libs') ∧
      (∀ w, w ∈ acc.2 → w ∈ out.2) := by
  intro sel
  induction sel with
  | nil =>
    intro acc out h
    rw [buildImportMap_nil] at h
    injection h with h
    subst h
    exact ⟨fun s libs lib hget hmem => ⟨libs, hget, hmem⟩, fun w hw => hw⟩
  | cons x rest ih =>
    intro acc out h
    cases hres : resolveLibraryDependencies x m fuel with
    | none =>
      rw [buildImportMap_cons_none rest acc hres] at h
      cases h
    | some res =>
      rw [buildImportMap_cons rest acc hres] at h
      obtain ⟨h1, h2⟩ := ih _ out h
      constructor
      · intro s libs lib hget hmem
        obtain ⟨libs', hget', hmem'⟩ :=
          addLibs_mono (x :: res.resolved.map Prod.snd) acc.1 s libs lib
            hget hmem
        exact h1 s libs' lib hget' hmem'
      · intro w hw
        apply h2
        by_cases hu : res.unresolved = []
        · rw [if_pos hu]
          exact hw
        · rw [if_neg hu]
          exact List.mem_append.mpr (Or.inl hw)

theorem foldl_files_mem :
    ∀ (libs : List SourcedLibraryMetadata) (acc : List String) (f : String),
      (f ∈ acc ∨ ∃ lib ∈ libs, f ∈ lib.files) →
      f ∈ libs.foldl (fun acc l => acc ++ l.files) acc := by
  intro libs
  induction libs with
  | nil =>
    intro acc f h
    rcases h with h | ⟨lib, hl, _⟩
    · exact h
    · exact absurd hl (List.not_mem_nil _)
  | cons x t ih =>
    intro acc f h
    simp only [List.foldl_cons]
    apply ih
    rcases h with h | ⟨lib, hl, hf⟩
    · exact Or.inl (List.mem_append.mpr (Or.inl h))
    · rcases List.mem_cons.mp hl with h' | h'
      · subst h'
        exact Or.inl (List.mem_append.mpr (Or.inr hf))
      · exact Or.inr ⟨lib, h', hf⟩

/-- A file mentioned by any library of a jar's import list is in the set of
file names copied from that jar. -/
theorem getLibFileNames_mem (libs : List SourcedLibraryMetadata)
    (lib : SourcedLibraryMetadata) (f : String) (hmem : lib ∈ libs)
    (hf : f ∈ lib.files) : f ∈ getLibFileNames libs := by
  unfold getLibFileNames
  rw [mem_jsSetOf]
  exact foldl_files_mem libs [] f (Or.inr ⟨lib, hmem, hf⟩)

end AddLibraryHandler

namespace AddLibraryHandler

/-- Core of C8: every selected library whose resolution completed is in
the import map under its own source, and its unresolved names (if any)
are warned about. -/
theorem buildImportMap_spec (m : LibrarySourceMap) (fuel : Nat) :
    ∀ (sel : List SourcedLibraryMetadata)
      (acc out : List (LibrarySource × List SourcedLibraryMetadata) ×
        List (String × List String))
      (lib : SourcedLibraryMetadata) (res : DependencyResolutionResult),
      buildImportMap m fuel sel acc = some out →
      lib ∈ sel →
      resolveLibraryDependencies lib m fuel = some res →
      (∃ libs, jsGet out.1 lib.source = some libs ∧ lib ∈ libs) ∧
      (res.unresolved ≠ [] → (lib.name, res.unresolved) ∈ out.2) := by
  intro sel
  induction sel with
  | nil =>
    intro acc out lib res _ hmem _
    exact absurd hmem (List.not_mem_nil _)
  | cons x rest ih =>
    intro acc out lib res hbuild hmem hres
    cases hres' : resolveLibraryDependencies x m fuel with
    | none =>
      rw [buildImportMap_cons_none rest acc hres'] at hbuild
      cases hbuild
    | some r =>
      rw [buildImportMap_cons rest acc hres'] at hbuild
      rcases List.mem_cons.mp hmem with h | h
      · subst h
        rw [hres] at hres'
        injection hres' with hr
        subst hr
        obtain ⟨hmono, hwarn⟩ := buildImportMap_mono m fuel rest _ out hbuild
        constructor
        · obtain ⟨libs, hget, hlib⟩ :=
            addLibs_head (lib :: res.resolved.map Prod.snd) acc.1 lib
              (List.mem_cons_self _ _)
          obtain ⟨libs', hget', hlib'⟩ := hmono lib.source libs lib hget hlib
          exact ⟨libs', hget', hlib'⟩
        · intro hu
          apply hwarn
          rw [if_neg hu]
          exact List.mem_append.mpr
            (Or.inr (List.mem_singleton.mpr rfl))
      · exact ih _ out lib res hbuild h hres

end AddLibraryHandler

/-- C8.  A selected library whose dependency resolution reports unresolved
names is nevertheless recorded in the import map under its jar source (so
its files are in the set of file names copied from that jar), while a
warning for that library enumerates exactly its unresolved dependency
names.  The concrete conjunct runs the `L`-selection against the catalog
with `C` absent: `L`, `A`, `B` are imported and the warning for `L` lists
`["C"]`. -/
theorem C8_unresolved_dependency_still_added :
    (∀ (m : LibrarySourceMap) (fuel : Nat)
        (selectedLibs : List SourcedLibraryMetadata)
        (out : List (LibrarySource × List SourcedLibraryMetadata) ×
          List (String × List String))
        (lib : SourcedLibraryMetadata) (res : DependencyResolutionResult),
        AddLibraryHandler.buildImportMap m fuel selectedLibs ([], []) =
          some out →
        lib ∈ selectedLibs →
        AddLibraryHandler.resolveLibraryDependencies lib m fuel = some res →
        (∃ libs, jsGet out.1 lib.source = some libs ∧ lib ∈ libs ∧
          ∀ f ∈ lib.files, f ∈ AddLibraryHandler.getLibFileNames libs) ∧
        (res.unresolved ≠ [] → (lib.name, res.unresolved) ∈ out.2)) ∧
    AddLibraryHandler.buildImportMap exCatalogNoC 9 [exLibL] ([], []) =
      some ([(exSrc, [exLibL, exLibA, exLibB])], [("L", ["C"])]) := by
  constructor
  · intro m fuel selectedLibs out lib res hbuild hmem hres
    obtain ⟨⟨libs, hget, hlib⟩, hwarn⟩ :=
      AddLibraryHandler.buildImportMap_spec m fuel selectedLibs ([], []) out
        lib res hbuild hmem hres
    exact ⟨⟨libs, hget, hlib,
      fun f hf => AddLibraryHandler.getLibFileNames_mem libs lib f hlib hf⟩,
      hwarn⟩
  · rfl

/-- Witness for C8: the `L`-selection against the catalog with `C` absent. -/
theorem C8_unresolved_dependency_still_added_witness :
    (∃ libs,
      jsGet ([(exSrc, [exLibL, exLibA, exLibB])] :
        List (LibrarySource × List SourcedLibraryMetadata)) exLibL.source =
          some libs ∧ exLibL ∈ libs ∧
        ∀ f ∈ exLibL.files, f ∈ AddLibraryHandler.getLibFileNames libs) ∧
    ((["C"] : List String) ≠ [] →
      ("L", ["C"]) ∈ ([("L", ["C"])] : List (String × List String))) :=
  C8_unresolved_dependency_still_added.1 exCatalogNoC 9 [exLibL]
    ([(exSrc, [exLibL, exLibA, exLibB])], [("L", ["C"])]) exLibL
    ⟨[("A", exLibA), ("B", exLibB)], ["C"]⟩
    (by rfl) (List.mem_singleton.mpr rfl) (by rfl)

/-! ## Theorems: source catalogs and scope merging -/

namespace VDMJExtensionsHandler

theorem mem_getDefaultExtensionSources {jarPaths : List String}
    {userDefined : List ExtensionSource} {s : ExtensionSource}
    (h : s ∈ getDefaultExtensionSources jarPaths userDefined) :
    s.type = "builtin" ∧ s.jarPath ∈ jarPaths ∧
      (∀ u ∈ userDefined, basename u.jarPath ≠ basename s.jarPath) := by
  unfold getDefaultExtensionSources at h
  dsimp only at h
  rcases List.mem_map.mp h with ⟨p, hp, rfl⟩
  by_cases hu : userDefined.length > 0
  · rw [if_pos hu] at hp
    have hmem := List.mem_of_mem_filter hp
    have hfilt := List.of_mem_filter hp
    refine ⟨rfl, hmem, ?_⟩
    intro u huu heq
    simp only [Bool.not_eq_true', List.any_eq_false, decide_eq_true_eq] at hfilt
    exact hfilt u huu heq
  · rw [if_neg hu] at hp
    have : userDefined = [] := List.length_eq_zero.mp (by omega)
    subst this
    exact ⟨rfl, hp, fun u huu => absurd huu (List.not_mem_nil _)⟩

theorem mem_getExtensionExtensionSources {env : VDMJEnv}
    {userDefined : List ExtensionSource} {s : ExtensionSource}
    (h : s ∈ getExtensionExtensionSources env userDefined) :
    s.type = "user" ∧ s.jarPath ∈ env.hostJarPaths ∧
      (∀ u ∈ userDefined, basename u.jarPath ≠ basename s.jarPath) := by
  unfold getExtensionExtensionSources at h
  rcases List.mem_map.mp h with ⟨p, hp, rfl⟩
  have hmem := List.mem_of_mem_filter hp
  have hfilt := List.of_mem_filter hp
  refine ⟨rfl, hmem, ?_⟩
  intro u huu heq
  simp only [Bool.not_eq_true', List.any_eq_false, decide_eq_true_eq] at hfilt
  exact hfilt u huu heq

end VDMJExtensionsHandler

/-- C3 (amended).  The full source lists are *not* ordered user, then
host-provided, then built-in: `getAllLibrarySources` returns the
user-declared stage followed by the built-in stage and omits the
host-extension-provided stage entirely (it is computed only to filter the
built-in jars); `getAllPluginSources` and `getAllAnnotationSources` return
user-declared, then built-in, then host-provided; the built-in stage
excludes basenames claimed by the *host* stage (not the user stage), and the
host stage excludes basenames claimed by the user stage. -/
theorem C3_source_catalog_order :
    (∀ (env : VDMJExtensionsHandler.VDMJEnv) (cache : Option (List String)),
        (VDMJExtensionsHandler.getAllLibrarySources env cache).1 =
          (VDMJExtensionsHandler.getUserLibrarySources env cache).1 ++
            VDMJExtensionsHandler.getDefaultLibrarySources env
              (VDMJExtensionsHandler.getExtensionLibrarySources env
                (VDMJExtensionsHandler.getUserLibrarySources env cache).1)) ∧
    (∀ (env : VDMJExtensionsHandler.VDMJEnv) (cache : Option (List String)),
        (VDMJExtensionsHandler.getAllPluginSources env cache).1 =
          (VDMJExtensionsHandler.getUserPluginSources env cache).1 ++
            VDMJExtensionsHandler.getDefaultPluginSources env
              (VDMJExtensionsHandler.getExtensionPluginSources env
                (VDMJExtensionsHandler.getUserPluginSources env cache).1) ++
            VDMJExtensionsHandler.getExtensionPluginSources env
              (VDMJExtensionsHandler.getUserPluginSources env cache).1) ∧
    (∀ (env : VDMJExtensionsHandler.VDMJEnv) (cache : Option (List String)),
        (VDMJExtensionsHandler.getAllAnnotationSources env cache).1 =
          (VDMJExtensionsHandler.getUserAnnotationsSources env cache).1 ++
            VDMJExtensionsHandler.getDefaultAnnotationSources env
              (VDMJExtensionsHandler.getExtensionAnnotationSources env
                (VDMJExtensionsHandler.getUserAnnotationsSources env cache).1) ++
            VDMJExtensionsHandler.getExtensionAnnotationSources env
              (VDMJExtensionsHandler.getUserAnnotationsSources env cache).1) ∧
    (∀ (jarPaths : List String) (userDefined : List ExtensionSource)
        (s : ExtensionSource),
        s ∈ VDMJExtensionsHandler.getDefaultExtensionSources jarPaths
          userDefined →
        s.type = "builtin" ∧ s.jarPath ∈ jarPaths ∧
          ∀ u ∈ userDefined, basename u.jarPath ≠ basename s.jarPath) ∧
    (∀ (env : VDMJExtensionsHandler.VDMJEnv)
        (userDefined : List ExtensionSource) (s : ExtensionSource),
        s ∈ VDMJExtensionsHandler.getExtensionExtensionSources env
          userDefined →
        s.type = "user" ∧ s.jarPath ∈ env.hostJarPaths ∧
          ∀ u ∈ userDefined, basename u.jarPath ≠ basename s.jarPath) :=
  ⟨fun _ _ => rfl, fun _ _ => rfl, fun _ _ => rfl,
    fun _ _ _ h => VDMJExtensionsHandler.mem_getDefaultExtensionSources h,
    fun _ _ _ h => VDMJExtensionsHandler.mem_getExtensionExtensionSources h⟩

/-- Witness for C3 at the concrete environment with one jar per stage. -/
theorem C3_source_catalog_order_witness :
    ((⟨"builtin", "/ext/libs/b.jar"⟩ : ExtensionSource).type = "builtin" ∧
      (⟨"builtin", "/ext/libs/b.jar"⟩ : ExtensionSource).jarPath ∈
        ["/ext/libs/b.jar"] ∧
      ∀ u ∈ ([⟨"user", "/h/h.jar"⟩] : List ExtensionSource),
        basename u.jarPath ≠
          basename (⟨"builtin", "/ext/libs/b.jar"⟩ : ExtensionSource).jarPath) ∧
    ((⟨"user", "/h/h.jar"⟩ : ExtensionSource).type = "user" ∧
      (⟨"user", "/h/h.jar"⟩ : ExtensionSource).jarPath ∈ envC3.hostJarPaths ∧
      ∀ u ∈ ([⟨"user", "/w/u.jar"⟩] : List ExtensionSource),
        basename u.jarPath ≠
          basename (⟨"user", "/h/h.jar"⟩ : ExtensionSource).jarPath) :=
  ⟨C3_source_catalog_order.2.2.2.1 ["/ext/libs/b.jar"]
      [⟨"user", "/h/h.jar"⟩] ⟨"builtin", "/ext/libs/b.jar"⟩ (by decide),
    C3_source_catalog_order.2.2.2.2 envC3 [⟨"user", "/w/u.jar"⟩]
      ⟨"user", "/h/h.jar"⟩ (by decide)⟩

/-- Counterexample for C3 as stated: in `envC3` (one valid jar per stage,
distinct basenames) the library catalog omits the host-provided jar
`/h/h.jar` entirely, and the plugin catalog lists the built-in jar *before*
the host-provided one — the claimed order user, host-provided, built-in with
per-stage basename exclusion does not hold; moreover in `envC3b` a built-in
plugin jar whose basename `x.jar` is already claimed by a user-declared jar
is *not* excluded. -/
theorem C3_source_catalog_order_counterexample :
    (VDMJExtensionsHandler.getAllLibrarySources envC3 none).1 =
      [⟨"user", "/w/u.jar"⟩, ⟨"builtin", "/ext/libs/b.jar"⟩] ∧
    (∀ s ∈ (VDMJExtensionsHandler.getAllLibrarySources envC3 none).1,
      s.jarPath ≠ "/h/h.jar") ∧
    (VDMJExtensionsHandler.getAllPluginSources envC3 none).1 =
      [⟨"user", "/w/u.jar"⟩, ⟨"builtin", "/ext/plugins/bp.jar"⟩,
        ⟨"user", "/h/h.jar"⟩] ∧
    (VDMJExtensionsHandler.getAllPluginSources envC3b none).1 =
      [⟨"user", "/w/x.jar"⟩, ⟨"builtin", "/ext/plugins/x.jar"⟩] ∧
    basename "/w/x.jar" = basename "/ext/plugins/x.jar" := by
  refine ⟨by decide, by decide, by decide, by decide, by decide⟩

/-- C4 (amended).  The merged resolution is keyed on the code's own
settings-equality test (`settingsEqualJS`: same length and every
folder-declared path occurs in the workspace/user list as a *non-empty*
string), not on identity up to order: when that test passes the merged
result is the folder-scope resolution alone, otherwise it is the
folder-scope resolved paths followed by the workspace/user-scope resolved
paths that survive the truthy-find filter `mergeKeepsPath`; whenever the
empty string is not among the folder-scope resolved paths, that filter keeps
exactly the paths whose basename does not already occur among the
folder-scope resolved paths. -/
theorem C4_scope_merge :
    (∀ (fs : FileSys) (folderSettings uws : List String) (wsRoot : String),
        settingsEqualJS folderSettings uws = true →
        (AddLibraryHandler.getUserLibrarySources fs folderSettings uws
            wsRoot).1 =
          (resolveJarPathsCore fs folderSettings (some wsRoot)).1.map
            (fun jarPath => (⟨"user", jarPath⟩ : LibrarySource))) ∧
    (∀ (fs : FileSys) (folderSettings uws : List String) (wsRoot : String),
        settingsEqualJS folderSettings uws = false →
        (AddLibraryHandler.getUserLibrarySources fs folderSettings uws
            wsRoot).1 =
          ((resolveJarPathsCore fs folderSettings (some wsRoot)).1 ++
            (resolveJarPathsCore fs uws none).1.filter
              (mergeKeepsPath
                (resolveJarPathsCore fs folderSettings (some wsRoot)).1)).map
            (fun jarPath => (⟨"user", jarPath⟩ : LibrarySource))) ∧
    (∀ (folderPaths : List String) (p : String), "" ∉ folderPaths →
        (mergeKeepsPath folderPaths p = true ↔
          basename p ∉ folderPaths.map basename)) := by
  refine ⟨?_, ?_, ?_⟩
  · intro fs f u w h
    unfold AddLibraryHandler.getUserLibrarySources
    rw [if_pos h]
  · intro fs f u w h
    unfold AddLibraryHandler.getUserLibrarySources
    rw [if_neg (by simp [h])]
  · intro folderPaths p hne
    unfold mergeKeepsPath
    cases hf : folderPaths.find?
        (fun fsPath => decide (basename fsPath = basename p)) with
    | some e =>
      have hmem : e ∈ folderPaths := List.mem_of_find?_eq_some hf
      have hpe := List.find?_some hf
      have hbe : basename e = basename p := of_decide_eq_true hpe
      constructor
      · intro he
        exact absurd (of_decide_eq_true he ▸ hmem) hne
      · intro hnot
        exact absurd (List.mem_map.mpr ⟨e, hmem, hbe⟩) hnot
    | none =>
      simp only [List.find?_eq_none, decide_eq_true_eq] at hf
      constructor
      · intro _ hmem
        rcases List.mem_map.mp hmem with ⟨q, hq, hbq⟩
        exact hf q hq hbq
      · intro _
        rfl

/-- Witness for C4: both branches of the merge and the basename filter at
concrete inputs. -/
theorem C4_scope_merge_witness :
    (settingsEqualJS ["/x/a.jar"] ["/x/a.jar"] = true ∧
      (AddLibraryHandler.getUserLibrarySources fsC4 ["/x/a.jar"]
          ["/x/a.jar"] "/w").1 =
        (resolveJarPathsCore fsC4 ["/x/a.jar"] (some "/w")).1.map
          (fun jarPath => (⟨"user", jarPath⟩ : LibrarySource))) ∧
    (settingsEqualJS ["/x/a.jar"] ["/y/b.jar"] = false ∧
      (AddLibraryHandler.getUserLibrarySources fsC4 ["/x/a.jar"]
          ["/y/b.jar"] "/w").1 =
        ((resolveJarPathsCore fsC4 ["/x/a.jar"] (some "/w")).1 ++
          (resolveJarPathsCore fsC4 ["/y/b.jar"] none).1.filter
            (mergeKeepsPath
              (resolveJarPathsCore fsC4 ["/x/a.jar"] (some "/w")).1)).map
          (fun jarPath => (⟨"user", jarPath⟩ : LibrarySource))) ∧
    ("" ∉ (["/x/a.jar"] : List String) ∧
      (mergeKeepsPath ["/x/a.jar"] "/z/a.jar" = true ↔
        basename "/z/a.jar" ∉ (["/x/a.jar"] : List String).map basename)) :=
  ⟨⟨by decide, C4_scope_merge.1 fsC4 ["/x/a.jar"] ["/x/a.jar"] "/w"
      (by decide)⟩,
    ⟨by decide, C4_scope_merge.2.1 fsC4 ["/x/a.jar"] ["/y/b.jar"] "/w"
      (by decide)⟩,
    ⟨by decide, C4_scope_merge.2.2 ["/x/a.jar"] "/z/a.jar" (by decide)⟩⟩

/-- Counterexample for C4 as stated: the declared lists
`["/x/a.jar", "/x/a.jar"]` (folder scope) and `["/x/a.jar", "/y/b.jar"]`
(workspace/user scope) are *not* identical up to order, yet the code's
containment-and-length test accepts them as equal, so the merge returns the
folder-scope resolution alone and `/y/b.jar` is silently dropped — the
specified merge would have produced `["/x/a.jar", "/y/b.jar"]`. -/
theorem C4_scope_merge_counterexample :
    ¬ identicalUpToOrder folderSettingsC4 uwsSettingsC4 ∧
    (AddLibraryHandler.getUserLibrarySources fsC4 folderSettingsC4
        uwsSettingsC4 "/w").1 = [⟨"user", "/x/a.jar"⟩] ∧
    specScopeMerge fsC4 folderSettingsC4 uwsSettingsC4 "/w" =
      ["/x/a.jar", "/y/b.jar"] ∧
    (AddLibraryHandler.getUserLibrarySources fsC4 folderSettingsC4
        uwsSettingsC4 "/w").1.map LibrarySource.jarPath ≠
      specScopeMerge fsC4 folderSettingsC4 uwsSettingsC4 "/w" :=
  ⟨by
    intro h
    have hb : "/y/b.jar" ∈ folderSettingsC4 := h.mem_iff.mpr (by decide)
    exact absurd hb (by decide),
    by decide, by decide, by decide⟩
